import Mathlib

/-!
Shallow embedding of the `brb_membership` crate's core state machine
(`src/brb_membership.rs`) together with proofs about its specification.

Modelling choices:
* `PublicKeyShare` and `SecretKeyShare` are modelled as `Nat`; a secret key's
  public key share is the same number (an idealized keypair).
* A `SignatureShare` is modelled as an idealized signature: the pair of the
  signer's key and the signed message (a `Vote`, standing for the injective
  `bincode` encoding of the vote).  `verify` checks that the signature is
  exactly the one the keyholder would produce on that message.
* `BTreeSet<T>` and `BTreeMap<K, V>` are modelled as lists kept sorted (and
  deduplicated) by an explicit comparison function mirroring Rust's derived
  `Ord` instances; insertion mirrors `BTreeSet::insert` / `BTreeMap::insert`.
* Methods taking `&mut self` become functions `State → args → State × result`,
  so that mutations performed before an early `?` return stay visible.
-/

namespace BRB

/-- `Generation` is `u64` in the source; modelled as `Nat`. -/
abbrev Generation := Nat

/-- `Reconfig`: `Join(PublicKeyShare) | Leave(PublicKeyShare)`. -/
inductive Reconfig where
  | Join (actor : Nat)
  | Leave (actor : Nat)
deriving DecidableEq, Repr

mutual
/-- `Ballot`: `Propose(Reconfig) | Merge(BTreeSet<SignedVote>) | SuperMajority(BTreeSet<SignedVote>)`. -/
inductive Ballot where
  | Propose (r : Reconfig)
  | Merge (votes : List SignedVote)
  | SuperMajority (votes : List SignedVote)

/-- `Vote { gen: Generation, ballot: Ballot }`. -/
inductive Vote where
  | mk (gen : Generation) (ballot : Ballot)

/-- Idealized `SignatureShare`: the signer's key plus the signed message. -/
inductive Sig where
  | mk (signer : Nat) (msg : Vote)

/-- `SignedVote { voter: PublicKeyShare, sig: SignatureShare, vote: Vote }`. -/
inductive SignedVote where
  | mk (voter : Nat) (sig : Sig) (vote : Vote)
end

mutual
def ballotDecEq : (a b : Ballot) → Decidable (a = b)
  | .Propose r, .Propose s =>
      match decEq r s with
      | isTrue h => isTrue (by rw [h])
      | isFalse h => isFalse (by intro hh; cases hh; exact h rfl)
  | .Propose _, .Merge _ => isFalse (by intro h; exact Ballot.noConfusion h)
  | .Propose _, .SuperMajority _ => isFalse (by intro h; exact Ballot.noConfusion h)
  | .Merge _, .Propose _ => isFalse (by intro h; exact Ballot.noConfusion h)
  | .Merge xs, .Merge ys =>
      match listSVDecEq xs ys with
      | isTrue h => isTrue (by rw [h])
      | isFalse h => isFalse (by intro hh; cases hh; exact h rfl)
  | .Merge _, .SuperMajority _ => isFalse (by intro h; exact Ballot.noConfusion h)
  | .SuperMajority _, .Propose _ => isFalse (by intro h; exact Ballot.noConfusion h)
  | .SuperMajority _, .Merge _ => isFalse (by intro h; exact Ballot.noConfusion h)
  | .SuperMajority xs, .SuperMajority ys =>
      match listSVDecEq xs ys with
      | isTrue h => isTrue (by rw [h])
      | isFalse h => isFalse (by intro hh; cases hh; exact h rfl)
termination_by structural a b => a

def listSVDecEq : (a b : List SignedVote) → Decidable (a = b)
  | [], [] => isTrue rfl
  | [], _ :: _ => isFalse (by intro h; exact List.noConfusion h)
  | _ :: _, [] => isFalse (by intro h; exact List.noConfusion h)
  | x :: xs, y :: ys =>
      match svDecEq x y, listSVDecEq xs ys with
      | isTrue h1, isTrue h2 => isTrue (by rw [h1, h2])
      | isFalse h1, _ => isFalse (by intro hh; cases hh; exact h1 rfl)
      | _, isFalse h2 => isFalse (by intro hh; cases hh; exact h2 rfl)
termination_by structural a b => a

def voteDecEq : (a b : Vote) → Decidable (a = b)
  | .mk g1 b1, .mk g2 b2 =>
      match decEq g1 g2, ballotDecEq b1 b2 with
      | isTrue h1, isTrue h2 => isTrue (by rw [h1, h2])
      | isFalse h1, _ => isFalse (by intro hh; cases hh; exact h1 rfl)
      | _, isFalse h2 => isFalse (by intro hh; cases hh; exact h2 rfl)
termination_by structural a b => a

def sigDecEq : (a b : Sig) → Decidable (a = b)
  | .mk s1 m1, .mk s2 m2 =>
      match decEq s1 s2, voteDecEq m1 m2 with
      | isTrue h1, isTrue h2 => isTrue (by rw [h1, h2])
      | isFalse h1, _ => isFalse (by intro hh; cases hh; exact h1 rfl)
      | _, isFalse h2 => isFalse (by intro hh; cases hh; exact h2 rfl)
termination_by structural a b => a

def svDecEq : (a b : SignedVote) → Decidable (a = b)
  | .mk v1 s1 vo1, .mk v2 s2 vo2 =>
      match decEq v1 v2, sigDecEq s1 s2, voteDecEq vo1 vo2 with
      | isTrue h1, isTrue h2, isTrue h3 => isTrue (by rw [h1, h2, h3])
      | isFalse h1, _, _ => isFalse (by intro hh; cases hh; exact h1 rfl)
      | _, isFalse h2, _ => isFalse (by intro hh; cases hh; exact h2 rfl)
      | _, _, isFalse h3 => isFalse (by intro hh; cases hh; exact h3 rfl)
termination_by structural a b => a
end

instance : DecidableEq Ballot := ballotDecEq
instance : DecidableEq Vote := voteDecEq
instance : DecidableEq Sig := sigDecEq
instance : DecidableEq SignedVote := svDecEq

def Vote.gen : Vote → Generation
  | .mk g _ => g

def Vote.ballot : Vote → Ballot
  | .mk _ b => b

def SignedVote.voter : SignedVote → Nat
  | .mk v _ _ => v

def SignedVote.sig : SignedVote → Sig
  | .mk _ s _ => s

def SignedVote.vote : SignedVote → Vote
  | .mk _ _ v => v

/-! ### Total orders mirroring the derived Rust `Ord` instances -/

/-- Comparison on `Nat`, mirroring `u64: Ord`. -/
def cmpNat (a b : Nat) : Ordering :=
  if a < b then .lt else if b < a then .gt else .eq

/-- Derived `Ord` for `Reconfig`: `Join` before `Leave`, then by actor. -/
def cmpReconfig : Reconfig → Reconfig → Ordering
  | .Join a, .Join b => cmpNat a b
  | .Join _, .Leave _ => .lt
  | .Leave _, .Join _ => .gt
  | .Leave a, .Leave b => cmpNat a b

/-- Combine two comparisons lexicographically. -/
def ordThen : Ordering → Ordering → Ordering
  | .eq, o => o
  | .lt, _ => .lt
  | .gt, _ => .gt

mutual
/-- Derived `Ord` for `Ballot`: variant order, then contents
    (`BTreeSet` compares as its ascending element sequence). -/
def cmpBallot : Ballot → Ballot → Ordering
  | .Propose a, .Propose b => cmpReconfig a b
  | .Propose _, .Merge _ => .lt
  | .Propose _, .SuperMajority _ => .lt
  | .Merge _, .Propose _ => .gt
  | .Merge a, .Merge b => cmpListSV a b
  | .Merge _, .SuperMajority _ => .lt
  | .SuperMajority _, .Propose _ => .gt
  | .SuperMajority _, .Merge _ => .gt
  | .SuperMajority a, .SuperMajority b => cmpListSV a b
termination_by structural a b => a

/-- Lexicographic comparison of signed-vote sequences. -/
def cmpListSV : List SignedVote → List SignedVote → Ordering
  | [], [] => .eq
  | [], _ :: _ => .lt
  | _ :: _, [] => .gt
  | x :: xs, y :: ys => ordThen (cmpSV x y) (cmpListSV xs ys)
termination_by structural a b => a

/-- Derived `Ord` for `Vote`: by `gen`, then by `ballot`. -/
def cmpVote : Vote → Vote → Ordering
  | .mk g1 b1, .mk g2 b2 => ordThen (cmpNat g1 g2) (cmpBallot b1 b2)
termination_by structural a b => a

/-- Total order on idealized signatures (the source orders signatures by bytes). -/
def cmpSig : Sig → Sig → Ordering
  | .mk s1 m1, .mk s2 m2 => ordThen (cmpNat s1 s2) (cmpVote m1 m2)
termination_by structural a b => a

/-- Derived `Ord` for `SignedVote`: by `voter`, then `sig`, then `vote`. -/
def cmpSV : SignedVote → SignedVote → Ordering
  | .mk v1 s1 vo1, .mk v2 s2 vo2 =>
      ordThen (cmpNat v1 v2) (ordThen (cmpSig s1 s2) (cmpVote vo1 vo2))
termination_by structural a b => a
end

/-- Derived `Ord` for `(PublicKeyShare, Reconfig)` pairs. -/
def cmpPR (a b : Nat × Reconfig) : Ordering :=
  ordThen (cmpNat a.1 b.1) (cmpReconfig a.2 b.2)

/-- Lexicographic comparison of reconfig sequences (`BTreeSet<Reconfig>: Ord`). -/
def cmpListReconfig : List Reconfig → List Reconfig → Ordering
  | [], [] => .eq
  | [], _ :: _ => .lt
  | _ :: _, [] => .gt
  | x :: xs, y :: ys => ordThen (cmpReconfig x y) (cmpListReconfig xs ys)

/-! ### Sorted-list models of `BTreeSet` and `BTreeMap` -/

/-- `BTreeSet::insert`: insert into a sorted list; an already-present equal
    element is kept. -/
def sInsert (cmp : α → α → Ordering) (x : α) : List α → List α
  | [] => [x]
  | y :: ys =>
      match cmp x y with
      | .lt => x :: y :: ys
      | .eq => y :: ys
      | .gt => y :: sInsert cmp x ys

/-- `BTreeSet::remove`: remove the element equal to `x` from a sorted list. -/
def sRemove (cmp : α → α → Ordering) (x : α) : List α → List α
  | [] => []
  | y :: ys =>
      match cmp x y with
      | .lt => y :: ys
      | .eq => ys
      | .gt => y :: sRemove cmp x ys

/-- `BTreeSet::from_iter` / `collect()`: insert all elements in order. -/
def sCollect (cmp : α → α → Ordering) (l : List α) : List α :=
  l.foldl (fun acc x => sInsert cmp x acc) []

/-- `BTreeMap::get`. -/
def mLookup (cmp : κ → κ → Ordering) (k : κ) : List (κ × ν) → Option ν
  | [] => none
  | (k', v) :: rest =>
      match cmp k k' with
      | .lt => none
      | .eq => some v
      | .gt => mLookup cmp k rest

/-- `BTreeMap::insert`: insert or replace the value at a key, keeping the
    association list sorted by key. -/
def mInsert (cmp : κ → κ → Ordering) (k : κ) (v : ν) : List (κ × ν) → List (κ × ν)
  | [] => [(k, v)]
  | (k', v') :: rest =>
      match cmp k k' with
      | .lt => (k, v) :: (k', v') :: rest
      | .eq => (k, v) :: rest
      | .gt => (k', v') :: mInsert cmp k v rest

/-- `BTreeMap::contains_key`. -/
def mContains (cmp : κ → κ → Ordering) (k : κ) (m : List (κ × ν)) : Bool :=
  (mLookup cmp k m).isSome

/-- `BTreeMap::values` (iteration is in ascending key order). -/
def mValues (m : List (κ × ν)) : List ν := m.map Prod.snd

/-- `Iterator::max().unwrap_or_default()` over `usize` values. -/
def listMax (l : List Nat) : Nat := l.foldl max 0

/-! ### Vote algebra -/

mutual
/-- `SignedVote::unpack_votes`: `{self} ∪ ⋃ child.unpack_votes()` as a sorted set. -/
def SignedVote.unpack_votes : SignedVote → List SignedVote
  | .mk voter sig (.mk g (.Propose r)) => [SignedVote.mk voter sig (.mk g (.Propose r))]
  | .mk voter sig (.mk g (.Merge votes)) =>
      sCollect cmpSV (SignedVote.mk voter sig (.mk g (.Merge votes)) :: unpackList votes)
  | .mk voter sig (.mk g (.SuperMajority votes)) =>
      sCollect cmpSV (SignedVote.mk voter sig (.mk g (.SuperMajority votes)) :: unpackList votes)
termination_by structural sv => sv

/-- Concatenation of `unpack_votes` over a child list (`flat_map`). -/
def unpackList : List SignedVote → List SignedVote
  | [] => []
  | v :: vs => v.unpack_votes ++ unpackList vs
termination_by structural l => l
end

mutual
/-- `SignedVote::reconfigs`: the `(voter, reconfig)` pairs of all `Propose` leaves. -/
def SignedVote.reconfigs : SignedVote → List (Nat × Reconfig)
  | .mk voter _ (.mk _ (.Propose r)) => [(voter, r)]
  | .mk _ _ (.mk _ (.Merge votes)) => sCollect cmpPR (reconfigsList votes)
  | .mk _ _ (.mk _ (.SuperMajority votes)) => sCollect cmpPR (reconfigsList votes)
termination_by structural sv => sv

/-- Concatenation of `reconfigs` over a child list (`flat_map`). -/
def reconfigsList : List SignedVote → List (Nat × Reconfig)
  | [] => []
  | v :: vs => v.reconfigs ++ reconfigsList vs
termination_by structural l => l
end

mutual
/-- `SignedVote::supersedes`: `self == vote`, or `vote` occurs in a child. -/
def SignedVote.supersedes : SignedVote → SignedVote → Bool
  | .mk voter sig (.mk g (.Propose r)), b =>
      if SignedVote.mk voter sig (.mk g (.Propose r)) = b then true else false
  | .mk voter sig (.mk g (.Merge votes)), b =>
      if SignedVote.mk voter sig (.mk g (.Merge votes)) = b then true
      else anySupersedes votes b
  | .mk voter sig (.mk g (.SuperMajority votes)), b =>
      if SignedVote.mk voter sig (.mk g (.SuperMajority votes)) = b then true
      else anySupersedes votes b
termination_by structural a b => a

/-- `votes.iter().any(|v| v.supersedes(vote))`. -/
def anySupersedes : List SignedVote → SignedVote → Bool
  | [], _ => false
  | v :: vs, b => v.supersedes b || anySupersedes vs b
termination_by structural l b => l
end

/-- `simplify_votes`: drop every vote superseded by a different vote of the set. -/
def simplify_votes (votes : List SignedVote) : List SignedVote :=
  votes.foldl (fun simpler_votes v =>
    if votes.any (fun other_v => if other_v = v then false else other_v.supersedes v) then
      simpler_votes
    else
      sInsert cmpSV v simpler_votes) []

/-- `Ballot::simplify`. -/
def Ballot.simplify : Ballot → Ballot
  | .Propose r => .Propose r
  | .Merge votes => .Merge (simplify_votes votes)
  | .SuperMajority votes => .SuperMajority (simplify_votes votes)

/-- `SignedVote::is_super_majority_ballot`. -/
def SignedVote.is_super_majority_ballot : SignedVote → Bool
  | .mk _ _ (.mk _ (.SuperMajority _)) => true
  | _ => false

/-! ### Errors, packets and state -/

/-- The `Error` variants produced by `brb_membership.rs`. -/
inductive Error where
  | InvalidSignature
  | VoteNotForNextGeneration (vote_gen gen pending_gen : Generation)
  | VoteFromNonMember (voter : Nat) (members : List Nat)
  | ExistingVoteIncompatibleWithNewVote (existing_vote : SignedVote)
  | SuperMajorityBallotIsNotSuperMajority (ballot : Ballot) (members : List Nat)
  | InvalidGeneration (gen : Generation)
  | InvalidVoteInHistory (vote : SignedVote)
  | JoinRequestForExistingMember (requester : Nat) (members : List Nat)
  | MembersAtCapacity (members : List Nat)
  | LeaveRequestForNonMember (requester : Nat) (members : List Nat)
  | VoterChangedMind (reconfigs : List (Nat × Reconfig))
deriving DecidableEq

/-- `SignedVote::verify_signature`: the idealized signature must be exactly the
    voter's signature over the vote. -/
def SignedVote.verify_signature (sv : SignedVote) : Except Error Unit :=
  if sv.sig = Sig.mk sv.voter sv.vote then .ok () else .error .InvalidSignature

/-- `VotePacket { vote, dest }`. -/
structure VotePacket where
  vote : SignedVote
  dest : Nat
deriving DecidableEq

/-- `const SOFT_MAX_MEMBERS: usize = 7`. -/
def SOFT_MAX_MEMBERS : Nat := 7

/-- The `State` struct. -/
structure State where
  secret_key_share : Nat
  gen : Generation
  pending_gen : Generation
  forced_reconfigs : List (Generation × List Reconfig)
  history : List (Generation × SignedVote)
  votes : List (Nat × SignedVote)
  faulty : Bool
deriving DecidableEq

namespace State

/-- `State::new`. -/
def new (secret_key_share : Nat) : State :=
  { secret_key_share, gen := 0, pending_gen := 0, forced_reconfigs := [],
    history := [], votes := [], faulty := false }

/-- `State::public_key_share` (idealized keypair: the share itself). -/
def public_key_share (s : State) : Nat := s.secret_key_share

/-- `State::force_join`. -/
def force_join (s : State) (actor : Nat) : State :=
  let forced := (mLookup cmpNat s.gen s.forced_reconfigs).getD []
  let forced := sRemove cmpReconfig (.Leave actor) forced
  let forced := sInsert cmpReconfig (.Join actor) forced
  { s with forced_reconfigs := mInsert cmpNat s.gen forced s.forced_reconfigs }

/-- `State::force_leave`. -/
def force_leave (s : State) (actor : Nat) : State :=
  let forced := (mLookup cmpNat s.gen s.forced_reconfigs).getD []
  let forced := sRemove cmpReconfig (.Join actor) forced
  let forced := sInsert cmpReconfig (.Leave actor) forced
  { s with forced_reconfigs := mInsert cmpNat s.gen forced s.forced_reconfigs }

end State

/-- `Reconfig::apply`: `Join` inserts the actor, `Leave` removes it. -/
def Reconfig.apply : Reconfig → List Nat → List Nat
  | .Join p, members => sInsert cmpNat p members
  | .Leave p, members => sRemove cmpNat p members

/-- `State::count_votes` (the source method ignores `self`). -/
def count_votes (votes : List SignedVote) : List (List Reconfig × Nat) :=
  votes.foldl (fun count vote =>
    let key := sCollect cmpReconfig (vote.reconfigs.map Prod.snd)
    mInsert cmpListReconfig key ((mLookup cmpListReconfig key count).getD 0 + 1) count) []

/-- `State::resolve_votes` (the source method ignores `self`):
    `max_by` over the count map in ascending key order, keeping the last
    maximum; `unwrap_or_default` yields the empty set. -/
def resolve_votes (votes : List SignedVote) : List Reconfig :=
  ((((count_votes votes).foldl (fun acc kv =>
      match acc with
      | none => some kv
      | some best => if kv.2 < best.2 then some best else some kv)
      none)).map Prod.fst).getD []

namespace State

/-- Loop of `State::members` over the history entries. -/
def membersGo (s : State) (gen : Generation) :
    List (Generation × SignedVote) → List Nat → Except Error (List Nat)
  | [], _ => .error (.InvalidGeneration gen)
  | (history_gen, vote) :: rest, m =>
      let m := ((mLookup cmpNat history_gen s.forced_reconfigs).getD []).foldl
        (fun m r => r.apply m) m
      match vote.vote.ballot with
      | .SuperMajority votes =>
          let m := (resolve_votes votes).foldl (fun m r => r.apply m) m
          if history_gen = gen then .ok m else s.membersGo gen rest m
      | _ => .error (.InvalidVoteInHistory vote)

/-- `State::members`. -/
def members (s : State) (gen : Generation) : Except Error (List Nat) :=
  let m := ((mLookup cmpNat 0 s.forced_reconfigs).getD []).foldl (fun m r => r.apply m) []
  if gen = 0 then .ok m
  else s.membersGo gen s.history m

/-- `State::sign_vote`. -/
def sign_vote (s : State) (vote : Vote) : SignedVote :=
  SignedVote.mk s.public_key_share (Sig.mk s.secret_key_share vote) vote

/-- One `log_vote` loop iteration: insert under the voter unless the existing
    entry is kept; replace when the new vote supersedes the existing one. -/
def logOne (votes : List (Nat × SignedVote)) (vote : SignedVote) : List (Nat × SignedVote) :=
  match mLookup cmpNat vote.voter votes with
  | none => mInsert cmpNat vote.voter vote votes
  | some existing_vote =>
      if vote.supersedes existing_vote then mInsert cmpNat vote.voter vote votes
      else votes

/-- `State::log_vote`: log every unpacked vote. -/
def log_vote (s : State) (vote : SignedVote) : State :=
  { s with votes := vote.unpack_votes.foldl logOne s.votes }

/-- `State::send`. -/
def send (s : State) (vote : SignedVote) (dest : Nat) : VotePacket :=
  { vote, dest }

/-- `State::broadcast`. -/
def broadcast (s : State) (vote : SignedVote) : Except Error (List VotePacket) := do
  let members ← s.members s.gen
  pure (members.map (fun member => s.send vote member))

/-- `State::cast_vote`. -/
def cast_vote (s : State) (vote : SignedVote) : State × Except Error (List VotePacket) :=
  let s := { s with pending_gen := vote.vote.gen }
  let s := s.log_vote vote
  (s, s.broadcast vote)

/-- `State::anti_entropy`: history entries newer than `from_gen`, then all
    current votes, addressed to `to_actor`. -/
def anti_entropy (s : State) (from_gen : Generation) (to_actor : Nat) : List VotePacket :=
  (s.history.filter (fun kv => from_gen < kv.1)).map (fun kv => s.send kv.2 to_actor)
    ++ (mValues s.votes).map (fun v => s.send v to_actor)

/-- `State::is_split_vote`. -/
def is_split_vote (s : State) (votes : List SignedVote) : Except Error Bool := do
  let counts := count_votes votes
  let most_votes := listMax (counts.map Prod.snd)
  let members ← s.members s.gen
  let voters := sCollect cmpNat (votes.map SignedVote.voter)
  let remaining_voters := (members.filter (fun m => !(voters.contains m))).length
  let predicted_votes := most_votes + remaining_voters
  pure (decide (3 * voters.length > 2 * members.length)
    && decide (3 * predicted_votes ≤ 2 * members.length))

/-- `State::is_super_majority`. -/
def is_super_majority (s : State) (votes : List SignedVote) : Except Error Bool := do
  let most_votes := listMax ((count_votes votes).map Prod.snd)
  let n := (← s.members s.gen).length
  pure (decide (3 * most_votes > 2 * n))

/-- `State::is_super_majority_over_super_majorities`. -/
def is_super_majority_over_super_majorities (s : State) (votes : List SignedVote) :
    Except Error Bool := do
  let winning_reconfigs := resolve_votes votes
  let count_of_super_majorities :=
    (((votes.filter (fun v =>
        decide (sCollect cmpReconfig (v.reconfigs.map Prod.snd) = winning_reconfigs))).filter
      (fun v => v.is_super_majority_ballot))).length
  pure (decide (3 * count_of_super_majorities > 2 * (← s.members s.gen).length))

/-- `State::validate_reconfig`. -/
def validate_reconfig (s : State) (reconfig : Reconfig) : Except Error Unit := do
  let members ← s.members s.gen
  match reconfig with
  | .Join actor =>
      if members.contains actor then
        .error (.JoinRequestForExistingMember actor members)
      else if SOFT_MAX_MEMBERS ≤ members.length then
        .error (.MembersAtCapacity members)
      else
        .ok ()
  | .Leave actor =>
      if !(members.contains actor) then
        .error (.LeaveRequestForNonMember actor members)
      else
        .ok ()

mutual
/-- `State::validate_signed_vote`. -/
def validate_signed_vote (s : State) : SignedVote → Except Error Unit
  | .mk voter sig vote =>
      match (SignedVote.mk voter sig vote).verify_signature with
      | .error e => .error e
      | .ok () =>
        match s.members s.gen with
        | .error e => .error e
        | .ok members =>
          if vote.gen ≠ s.gen + 1 then
            .error (.VoteNotForNextGeneration vote.gen s.gen s.pending_gen)
          else if !(members.contains voter) then
            .error (.VoteFromNonMember voter members)
          else if (match mLookup cmpNat voter s.votes with
                   | some existing_vote =>
                       !((SignedVote.mk voter sig vote).supersedes existing_vote)
                         && !(existing_vote.supersedes (SignedVote.mk voter sig vote))
                   | none => false) then
            .error (.ExistingVoteIncompatibleWithNewVote
              ((mLookup cmpNat voter s.votes).getD (SignedVote.mk voter sig vote)))
          else if s.pending_gen = s.gen then
            s.validate_vote vote
          else
            let reconfigs := sCollect cmpPR
              (((mValues s.votes).map SignedVote.reconfigs).flatten
                ++ (SignedVote.mk voter sig vote).reconfigs)
            let voters := sCollect cmpNat (reconfigs.map Prod.fst)
            if voters.length ≠ reconfigs.length then
              .error (.VoterChangedMind reconfigs)
            else
              s.validate_vote vote
termination_by structural sv => sv

/-- `State::validate_vote`. -/
def validate_vote (s : State) : Vote → Except Error Unit
  | .mk _ (.Propose reconfig) => s.validate_reconfig reconfig
  | .mk gen (.Merge votes) => s.validateMergeChildren gen votes
  | .mk _ (.SuperMajority votes) =>
      match s.members s.gen with
      | .error e => .error e
      | .ok members =>
        match s.is_super_majority (sCollect cmpSV (unpackList votes)) with
        | .error e => .error e
        | .ok b =>
          if !b then
            .error (.SuperMajorityBallotIsNotSuperMajority (.SuperMajority votes) members)
          else
            .ok ()
termination_by structural v => v

/-- The child-validation loop of the `Merge` arm of `State::validate_vote`. -/
def validateMergeChildren (s : State) (gen : Generation) : List SignedVote → Except Error Unit
  | [] => .ok ()
  | v :: vs =>
      if v.vote.gen ≠ gen then
        .error (.VoteNotForNextGeneration v.vote.gen gen gen)
      else
        match s.validate_signed_vote v with
        | .error e => .error e
        | .ok () => s.validateMergeChildren gen vs
termination_by structural l => l
end

/-- `State::propose`. -/
def propose (s : State) (reconfig : Reconfig) : State × Except Error (List VotePacket) :=
  let vote := s.sign_vote (Vote.mk (s.gen + 1) (.Propose reconfig))
  match s.validate_signed_vote vote with
  | .error e => (s, .error e)
  | .ok () => s.cast_vote vote

/-- `State::handle_vote`. -/
def handle_vote (s : State) (vote : SignedVote) : State × Except Error (List VotePacket) :=
  match s.validate_signed_vote vote with
  | .error e => (s, .error e)
  | .ok () =>
    let s := s.log_vote vote
    let s := { s with pending_gen := vote.vote.gen }
    match s.is_split_vote (sCollect cmpSV (mValues s.votes)) with
    | .error e => (s, .error e)
    | .ok true =>
        let merge_vote := s.sign_vote (Vote.mk s.pending_gen
          ((Ballot.Merge (sCollect cmpSV (mValues s.votes))).simplify))
        match mLookup cmpNat s.public_key_share s.votes with
        | some our_vote =>
            let reconfigs_we_voted_for :=
              sCollect cmpReconfig (our_vote.reconfigs.map Prod.snd)
            let reconfigs_we_would_vote_for :=
              sCollect cmpReconfig (merge_vote.reconfigs.map Prod.snd)
            if reconfigs_we_voted_for = reconfigs_we_would_vote_for then (s, .ok [])
            else s.cast_vote merge_vote
        | none => s.cast_vote merge_vote
    | .ok false =>
      match s.is_super_majority_over_super_majorities (sCollect cmpSV (mValues s.votes)) with
      | .error e => (s, .error e)
      | .ok true =>
          match s.members s.gen with
          | .error e => (s, .error e)
          | .ok members =>
            let sm_vote : Except Error (Option SignedVote) :=
              if members.contains s.public_key_share then
                .ok (some (s.sign_vote (Vote.mk s.pending_gen
                  ((Ballot.SuperMajority (sCollect cmpSV (mValues s.votes))).simplify))))
              else
                match s.is_super_majority_over_super_majorities vote.unpack_votes with
                | .error e => .error e
                | .ok true => .ok (some vote)
                | .ok false => .ok none
            match sm_vote with
            | .error e => (s, .error e)
            | .ok (some smv) =>
                ({ s with history := mInsert cmpNat s.pending_gen smv s.history,
                          votes := [],
                          gen := s.pending_gen }, .ok [])
            | .ok none => (s, .ok [])
      | .ok false =>
        match s.is_super_majority (sCollect cmpSV (mValues s.votes)) with
        | .error e => (s, .error e)
        | .ok true =>
            let stall :=
              match mLookup cmpNat s.public_key_share s.votes with
              | some our_vote =>
                  let super_majority_reconfigs :=
                    resolve_votes (sCollect cmpSV (mValues s.votes))
                  ((resolve_votes our_vote.unpack_votes).any
                      (fun r => !(super_majority_reconfigs.contains r)))
                    || our_vote.is_super_majority_ballot
              | none => false
            if stall then (s, .ok [])
            else
              s.cast_vote (s.sign_vote (Vote.mk s.pending_gen
                ((Ballot.SuperMajority (sCollect cmpSV (mValues s.votes))).simplify)))
        | .ok false =>
            if !(mContains cmpNat s.public_key_share s.votes) then
              s.cast_vote (s.sign_vote (Vote.mk s.pending_gen vote.vote.ballot))
            else
              (s, .ok [])

end State

def exceptDecEq {ε α : Type} [DecidableEq ε] [DecidableEq α] :
    (a b : Except ε α) → Decidable (a = b)
  | .ok a, .ok b =>
      match decEq a b with
      | isTrue h => isTrue (by rw [h])
      | isFalse h => isFalse (by intro hh; cases hh; exact h rfl)
  | .ok _, .error _ => isFalse (by intro h; exact Except.noConfusion h)
  | .error _, .ok _ => isFalse (by intro h; exact Except.noConfusion h)
  | .error a, .error b =>
      match decEq a b with
      | isTrue h => isTrue (by rw [h])
      | isFalse h => isFalse (by intro hh; cases hh; exact h rfl)

instance {ε α : Type} [DecidableEq ε] [DecidableEq α] : DecidableEq (Except ε α) :=
  exceptDecEq

/-! ### Concrete scenarios -/

/-- A state owned by key `1` whose sole member (via a forced join) is `1`. -/
def oneMemberState : State := (State.new 1).force_join 1

/-- Member `1`'s signed proposal to join actor `2` at generation 1. -/
def proposeJoin2 : SignedVote := oneMemberState.sign_vote (Vote.mk 1 (.Propose (.Join 2)))

/-- First delivery of `proposeJoin2` to `oneMemberState`. -/
def firstDelivery : State × Except Error (List VotePacket) :=
  oneMemberState.handle_vote proposeJoin2

/-- Second delivery of the identical packet to the state after the first. -/
def secondDelivery : State × Except Error (List VotePacket) :=
  firstDelivery.1.handle_vote proposeJoin2

/-- A state owned by key `1` whose members (via forced joins) are `2` and `4`. -/
def twoForcedState : State := ((State.new 1).force_join 2).force_join 4

/-- A vote attributed to voter `3` whose signature does not verify (wrong key,
    wrong message) and whose generation is 42. -/
def forgedChild3 : SignedVote :=
  SignedVote.mk 3 (Sig.mk 99 (Vote.mk 5 (.Propose (.Join 9)))) (Vote.mk 42 (.Propose (.Join 9)))

/-- A vote attributed to voter `4` whose signature does not verify and whose
    generation is 7. -/
def forgedChild4 : SignedVote :=
  SignedVote.mk 4 (Sig.mk 98 (Vote.mk 6 (.Propose (.Join 9)))) (Vote.mk 7 (.Propose (.Join 9)))

/-- A correctly signed generation-1 `SuperMajority` vote by member `2` whose
    child votes are both forged. -/
def forgedChildrenVote : SignedVote :=
  (State.new 2).sign_vote (Vote.mk 1 (.SuperMajority [forgedChild3, forgedChild4]))

/-- A stray signed vote by key `5` (used with a state that has no members). -/
def strayVote : SignedVote := (State.new 5).sign_vote (Vote.mk 1 (.Propose (.Join 9)))

/-- Delivery of the forged-children vote to `twoForcedState`. -/
def forgedDelivery : State × Except Error (List VotePacket) :=
  twoForcedState.handle_vote forgedChildrenVote

/-! ### The transition system of entry-point operations -/

/-- One entry-point operation of the state machine (the state after the call;
    `anti_entropy` takes `&self` and leaves the state as it is). -/
inductive Step : State → State → Prop where
  | propose (s : State) (r : Reconfig) : Step s (s.propose r).1
  | handle_vote (s : State) (v : SignedVote) : Step s (s.handle_vote v).1
  | force_join (s : State) (a : Nat) : Step s (s.force_join a)
  | force_leave (s : State) (a : Nat) : Step s (s.force_leave a)
  | anti_entropy (s : State) (from_gen : Generation) (to_actor : Nat) : Step s s

/-- States reachable from a fresh state by entry-point operations. -/
inductive Reachable : State → Prop where
  | new (k : Nat) : Reachable (State.new k)
  | step {s s' : State} : Reachable s → Step s s' → Reachable s'

/-- All votes nested inside `sv` carry `sv`'s own generation.  (Validation
    enforces this for `Merge` children but not for `SuperMajority` children.) -/
def UniformGens (sv : SignedVote) : Prop :=
  ∀ u ∈ sv.unpack_votes, u.vote.gen = sv.vote.gen

/-- One entry-point operation whose `handle_vote` inputs have uniform nested
    generations. -/
inductive StepU : State → State → Prop where
  | propose (s : State) (r : Reconfig) : StepU s (s.propose r).1
  | handle_vote (s : State) (v : SignedVote) (hu : UniformGens v) :
      StepU s (s.handle_vote v).1
  | force_join (s : State) (a : Nat) : StepU s (s.force_join a)
  | force_leave (s : State) (a : Nat) : StepU s (s.force_leave a)
  | anti_entropy (s : State) (from_gen : Generation) (to_actor : Nat) : StepU s s

/-- States reachable using only uniform-generation `handle_vote` inputs. -/
inductive ReachableU : State → Prop where
  | new (k : Nat) : ReachableU (State.new k)
  | step {s s' : State} : ReachableU s → StepU s s' → ReachableU s'

/-- The child votes of a ballot (`Propose` is a leaf). -/
def Ballot.children : Ballot → List SignedVote
  | .Propose _ => []
  | .Merge votes => votes
  | .SuperMajority votes => votes

/-- The reconfig-set a vote contributes to `count_votes` (its `reconfigs()`
    projected to the reconfig component, as a canonical set). -/
def voteProj (v : SignedVote) : List Reconfig :=
  sCollect cmpReconfig (v.reconfigs.map Prod.snd)

/-- Number of votes of `votes` whose projection is exactly `R`. -/
def occurrences (votes : List SignedVote) (R : List Reconfig) : Nat :=
  votes.countP (fun v => decide (voteProj v = R))

/-- The votes-map entry for `u`'s voter exists and is not strictly superseded
    by `u` (the property `log_vote` establishes and preserves). -/
def okEntry (m : List (Nat × SignedVote)) (u : SignedVote) : Prop :=
  ∃ e, mLookup cmpNat u.voter m = some e ∧ (u.supersedes e = true → u = e)

/-- The loop body of `count_votes` (named for reasoning; `count_votes votes`
    is definitionally `votes.foldl countStep []`). -/
def countStep (count : List (List Reconfig × Nat)) (vote : SignedVote) :
    List (List Reconfig × Nat) :=
  mInsert cmpListReconfig (voteProj vote)
    ((mLookup cmpListReconfig (voteProj vote) count).getD 0 + 1) count

/-- The `max_by` accumulator step of `resolve_votes` (keeps the later entry on
    ties, as `Iterator::max_by` does). -/
def betterOf (acc : Option (List Reconfig × Nat)) (kv : List Reconfig × Nat) :
    Option (List Reconfig × Nat) :=
  match acc with
  | none => some kv
  | some best => if kv.2 < best.2 then some best else some kv

/-! ## Theorems -/

@[simp] theorem Vote.gen_mk (g : Generation) (b : Ballot) : (Vote.mk g b).gen = g := rfl

@[simp] theorem Vote.ballot_mk (g : Generation) (b : Ballot) : (Vote.mk g b).ballot = b := rfl

@[simp] theorem SignedVote.voter_mk (v : Nat) (s : Sig) (vo : Vote) :
    (SignedVote.mk v s vo).voter = v := rfl

@[simp] theorem SignedVote.sig_mk (v : Nat) (s : Sig) (vo : Vote) :
    (SignedVote.mk v s vo).sig = s := rfl

@[simp] theorem SignedVote.vote_mk (v : Nat) (s : Sig) (vo : Vote) :
    (SignedVote.mk v s vo).vote = vo := rfl

/-! ### Comparator laws -/

theorem cmpNat_lt_iff (a b : Nat) : cmpNat a b = .lt ↔ a < b := by
  unfold cmpNat
  split_ifs <;> simp <;> omega

theorem cmpNat_gt_iff (a b : Nat) : cmpNat a b = .gt ↔ b < a := by
  unfold cmpNat
  split_ifs <;> simp <;> omega

theorem cmpNat_eq_iff (a b : Nat) : cmpNat a b = .eq ↔ a = b := by
  unfold cmpNat
  split_ifs <;> simp <;> omega

theorem cmpNat_refl (a : Nat) : cmpNat a a = .eq := (cmpNat_eq_iff a a).mpr rfl

theorem cmpNat_lt_trans {a b c : Nat} (h1 : cmpNat a b = .lt) (h2 : cmpNat b c = .lt) :
    cmpNat a c = .lt := by
  rw [cmpNat_lt_iff] at h1 h2 ⊢
  omega

theorem cmpNat_gt_lt {a b : Nat} (h : cmpNat a b = .gt) : cmpNat b a = .lt := by
  rw [cmpNat_gt_iff] at h
  rw [cmpNat_lt_iff]
  omega

theorem cmpReconfig_eq_iff (a b : Reconfig) : cmpReconfig a b = .eq ↔ a = b := by
  cases a <;> cases b <;> simp [cmpReconfig, cmpNat_eq_iff]

theorem cmpReconfig_refl (a : Reconfig) : cmpReconfig a a = .eq :=
  (cmpReconfig_eq_iff a a).mpr rfl

theorem cmpReconfig_lt_trans {a b c : Reconfig} (h1 : cmpReconfig a b = .lt)
    (h2 : cmpReconfig b c = .lt) : cmpReconfig a c = .lt := by
  cases a <;> cases b <;> cases c <;>
    simp [cmpReconfig, cmpNat_lt_iff] at h1 h2 ⊢ <;> omega

theorem cmpReconfig_gt_lt {a b : Reconfig} (h : cmpReconfig a b = .gt) :
    cmpReconfig b a = .lt := by
  cases a <;> cases b <;>
    simp [cmpReconfig, cmpNat_gt_iff, cmpNat_lt_iff] at h ⊢ <;> omega

theorem ordThen_eq {a b : Ordering} (h : ordThen a b = .eq) : a = .eq ∧ b = .eq := by
  cases a <;> simp [ordThen] at h ⊢
  exact h

mutual
theorem cmpBallot_eq_sound : ∀ a b : Ballot, cmpBallot a b = .eq → a = b
  | .Propose r, .Propose t, h => by
      rw [(cmpReconfig_eq_iff r t).mp h]
  | .Propose _, .Merge _, h => by simp [cmpBallot] at h
  | .Propose _, .SuperMajority _, h => by simp [cmpBallot] at h
  | .Merge _, .Propose _, h => by simp [cmpBallot] at h
  | .Merge xs, .Merge ys, h => by rw [cmpListSV_eq_sound xs ys h]
  | .Merge _, .SuperMajority _, h => by simp [cmpBallot] at h
  | .SuperMajority _, .Propose _, h => by simp [cmpBallot] at h
  | .SuperMajority _, .Merge _, h => by simp [cmpBallot] at h
  | .SuperMajority xs, .SuperMajority ys, h => by rw [cmpListSV_eq_sound xs ys h]
termination_by structural a b => a

theorem cmpListSV_eq_sound : ∀ a b : List SignedVote, cmpListSV a b = .eq → a = b
  | [], [], _ => rfl
  | [], _ :: _, h => by simp [cmpListSV] at h
  | _ :: _, [], h => by simp [cmpListSV] at h
  | x :: xs, y :: ys, h => by
      obtain ⟨h1, h2⟩ := ordThen_eq h
      rw [cmpSV_eq_sound x y h1, cmpListSV_eq_sound xs ys h2]
termination_by structural a b => a

theorem cmpVote_eq_sound : ∀ a b : Vote, cmpVote a b = .eq → a = b
  | .mk g1 b1, .mk g2 b2, h => by
      obtain ⟨h1, h2⟩ := ordThen_eq h
      rw [(cmpNat_eq_iff g1 g2).mp h1, cmpBallot_eq_sound b1 b2 h2]
termination_by structural a b => a

theorem cmpSig_eq_sound : ∀ a b : Sig, cmpSig a b = .eq → a = b
  | .mk s1 m1, .mk s2 m2, h => by
      obtain ⟨h1, h2⟩ := ordThen_eq h
      rw [(cmpNat_eq_iff s1 s2).mp h1, cmpVote_eq_sound m1 m2 h2]
termination_by structural a b => a

theorem cmpSV_eq_sound : ∀ a b : SignedVote, cmpSV a b = .eq → a = b
  | .mk v1 s1 vo1, .mk v2 s2 vo2, h => by
      obtain ⟨h1, h23⟩ := ordThen_eq h
      obtain ⟨h2, h3⟩ := ordThen_eq h23
      rw [(cmpNat_eq_iff v1 v2).mp h1, cmpSig_eq_sound s1 s2 h2, cmpVote_eq_sound vo1 vo2 h3]
termination_by structural a b => a
end

theorem cmpPR_eq_sound {a b : Nat × Reconfig} (h : cmpPR a b = .eq) : a = b := by
  obtain ⟨h1, h2⟩ := ordThen_eq h
  obtain ⟨a1, a2⟩ := a
  obtain ⟨b1, b2⟩ := b
  rw [Prod.mk.injEq]
  exact ⟨(cmpNat_eq_iff a1 b1).mp h1, (cmpReconfig_eq_iff a2 b2).mp h2⟩

theorem cmpListReconfig_eq_sound : ∀ {a b : List Reconfig},
    cmpListReconfig a b = .eq → a = b
  | [], [], _ => rfl
  | [], _ :: _, h => by simp [cmpListReconfig] at h
  | _ :: _, [], h => by simp [cmpListReconfig] at h
  | x :: xs, y :: ys, h => by
      obtain ⟨h1, h2⟩ := ordThen_eq h
      rw [(cmpReconfig_eq_iff x y).mp h1, cmpListReconfig_eq_sound h2]

theorem cmpListReconfig_refl (a : List Reconfig) : cmpListReconfig a a = .eq := by
  induction a with
  | nil => rfl
  | cons x xs ih => simp [cmpListReconfig, cmpReconfig_refl, ordThen, ih]

theorem cmpListReconfig_lt_trans : ∀ {a b c : List Reconfig},
    cmpListReconfig a b = .lt → cmpListReconfig b c = .lt → cmpListReconfig a c = .lt
  | _, [], [], _, h2 => by simp [cmpListReconfig] at h2
  | [], _ :: _, _ :: _, _, _ => rfl
  | _ :: _, [], _, h1, _ => by simp [cmpListReconfig] at h1
  | x :: xs, y :: ys, z :: zs, h1, h2 => by
      simp only [cmpListReconfig] at h1 h2 ⊢
      cases hxy : cmpReconfig x y with
      | lt =>
          cases hyz : cmpReconfig y z with
          | lt => rw [cmpReconfig_lt_trans hxy hyz]; rfl
          | eq => rw [← (cmpReconfig_eq_iff y z).mp hyz, hxy]; rfl
          | gt => rw [hyz] at h2; simp [ordThen] at h2
      | eq =>
          have hxey := (cmpReconfig_eq_iff x y).mp hxy
          cases hyz : cmpReconfig y z with
          | lt => rw [hxey, hyz]; rfl
          | eq =>
              rw [hxy] at h1
              rw [hyz] at h2
              simp only [ordThen] at h1 h2
              rw [hxey, (cmpReconfig_eq_iff y z).mp hyz, cmpReconfig_refl]
              simpa [ordThen] using cmpListReconfig_lt_trans h1 h2
          | gt => rw [hyz] at h2; simp [ordThen] at h2
      | gt => rw [hxy] at h1; simp [ordThen] at h1

theorem cmpListReconfig_gt_lt : ∀ {a b : List Reconfig},
    cmpListReconfig a b = .gt → cmpListReconfig b a = .lt
  | [], [], h => by simp [cmpListReconfig] at h
  | [], _ :: _, h => by simp [cmpListReconfig] at h
  | _ :: _, [], _ => rfl
  | x :: xs, y :: ys, h => by
      simp only [cmpListReconfig] at h ⊢
      cases hxy : cmpReconfig x y with
      | lt => rw [hxy] at h; simp [ordThen] at h
      | eq =>
          rw [hxy] at h
          simp only [ordThen] at h
          rw [← (cmpReconfig_eq_iff x y).mp hxy, cmpReconfig_refl]
          simpa [ordThen] using cmpListReconfig_gt_lt h
      | gt => rw [cmpReconfig_gt_lt hxy]; rfl

/-! ### Sorted-list set and map lemmas -/

theorem mem_sInsert {cmp : α → α → Ordering} {y x : α} : ∀ {l : List α},
    y ∈ sInsert cmp x l → y = x ∨ y ∈ l
  | [], h => by simpa [sInsert] using h
  | z :: zs, h => by
      cases hc : cmp x z with
      | lt =>
          simp only [sInsert, hc] at h
          rcases List.mem_cons.mp h with h1 | h1
          · exact .inl h1
          · exact .inr h1
      | eq =>
          simp only [sInsert, hc] at h
          exact .inr h
      | gt =>
          simp only [sInsert, hc] at h
          rcases List.mem_cons.mp h with h1 | h1
          · exact .inr (by simp [h1])
          · rcases mem_sInsert h1 with h2 | h2
            · exact .inl h2
            · exact .inr (by simp [h2])

theorem mem_sInsert_self {cmp : α → α → Ordering}
    (hEq : ∀ a b : α, cmp a b = .eq → a = b) (x : α) : ∀ l : List α, x ∈ sInsert cmp x l
  | [] => by simp [sInsert]
  | z :: zs => by
      cases hc : cmp x z with
      | lt => simp only [sInsert, hc]; exact .head _
      | eq => simp only [sInsert, hc]; rw [hEq x z hc]; exact .head _
      | gt => simp only [sInsert, hc]; exact .tail _ (mem_sInsert_self hEq x zs)

theorem mem_sInsert_of_mem {cmp : α → α → Ordering} {y : α} (x : α) : ∀ {l : List α},
    y ∈ l → y ∈ sInsert cmp x l
  | [], h => by cases h
  | z :: zs, h => by
      cases hc : cmp x z with
      | lt => simp only [sInsert, hc]; exact .tail _ h
      | eq => simp only [sInsert, hc]; exact h
      | gt =>
          simp only [sInsert, hc]
          rcases List.mem_cons.mp h with h1 | h1
          · exact h1 ▸ .head _
          · exact .tail _ (mem_sInsert_of_mem x h1)

theorem mem_sCollect_aux {cmp : α → α → Ordering}
    (hEq : ∀ a b : α, cmp a b = .eq → a = b) (y : α) : ∀ (l acc : List α),
    (y ∈ l.foldl (fun acc x => sInsert cmp x acc) acc ↔ y ∈ acc ∨ y ∈ l)
  | [], acc => by simp
  | z :: zs, acc => by
      simp only [List.foldl_cons, mem_sCollect_aux hEq y zs]
      constructor
      · rintro (h | h)
        · rcases mem_sInsert h with h | h
          · exact .inr (by simp [h])
          · exact .inl h
        · exact .inr (by simp [h])
      · rintro (h | h)
        · exact .inl (mem_sInsert_of_mem z h)
        · rcases List.mem_cons.mp h with h | h
          · exact .inl (h ▸ mem_sInsert_self hEq y acc)
          · exact .inr h

theorem mem_sCollect {cmp : α → α → Ordering}
    (hEq : ∀ a b : α, cmp a b = .eq → a = b) (y : α) (l : List α) :
    y ∈ sCollect cmp l ↔ y ∈ l := by
  unfold sCollect
  rw [mem_sCollect_aux hEq y l []]
  simp

theorem mem_sRemove {cmp : α → α → Ordering} {y x : α} : ∀ {l : List α},
    y ∈ sRemove cmp x l → y ∈ l
  | [], h => by simp [sRemove] at h
  | z :: zs, h => by
      cases hc : cmp x z with
      | lt => simpa only [sRemove, hc] using h
      | eq => simp only [sRemove, hc] at h; exact .tail _ h
      | gt =>
          simp only [sRemove, hc] at h
          rcases List.mem_cons.mp h with h1 | h1
          · exact h1 ▸ .head _
          · exact .tail _ (mem_sRemove h1)

theorem not_mem_sRemove_self {cmp : α → α → Ordering}
    (hEq : ∀ a b : α, cmp a b = .eq → a = b) (hRefl : ∀ a : α, cmp a a = .eq)
    (hTrans : ∀ a b c : α, cmp a b = .lt → cmp b c = .lt → cmp a c = .lt) (x : α) :
    ∀ {l : List α}, l.Pairwise (fun a b => cmp a b = .lt) → x ∉ sRemove cmp x l
  | [], _ => by simp [sRemove]
  | z :: zs, hp => by
      obtain ⟨hz, hzs⟩ := List.pairwise_cons.mp hp
      cases hc : cmp x z with
      | lt =>
          simp only [sRemove, hc]
          intro hmem
          rcases List.mem_cons.mp hmem with h | h
          · rw [h, hRefl] at hc
            cases hc
          · have h2 := hTrans x z x hc (hz x h)
            rw [hRefl] at h2
            cases h2
      | eq =>
          simp only [sRemove, hc]
          intro hmem
          have hxz := hEq x z hc
          have h2 := hz x hmem
          rw [← hxz, hRefl] at h2
          cases h2
      | gt =>
          simp only [sRemove, hc]
          intro hmem
          rcases List.mem_cons.mp hmem with h | h
          · rw [h, hRefl] at hc
            cases hc
          · exact not_mem_sRemove_self hEq hRefl hTrans x hzs h

theorem sRemove_sublist (cmp : α → α → Ordering) (x : α) :
    ∀ l : List α, (sRemove cmp x l).Sublist l
  | [] => .slnil
  | z :: zs => by
      cases hc : cmp x z with
      | lt => simp only [sRemove, hc]; exact List.Sublist.refl _
      | eq => simp only [sRemove, hc]; exact List.sublist_cons_self z zs
      | gt => simp only [sRemove, hc]; exact (sRemove_sublist cmp x zs).cons₂ z

theorem sRemove_pairwise {cmp : α → α → Ordering} (x : α) {l : List α}
    (h : l.Pairwise (fun a b => cmp a b = .lt)) :
    (sRemove cmp x l).Pairwise (fun a b => cmp a b = .lt) :=
  h.sublist (sRemove_sublist cmp x l)

theorem sInsert_pairwise {cmp : α → α → Ordering}
    (hTrans : ∀ a b c : α, cmp a b = .lt → cmp b c = .lt → cmp a c = .lt)
    (hGtLt : ∀ a b : α, cmp a b = .gt → cmp b a = .lt) (x : α) :
    ∀ {l : List α}, l.Pairwise (fun a b => cmp a b = .lt) →
      (sInsert cmp x l).Pairwise (fun a b => cmp a b = .lt)
  | [], _ => by simp [sInsert]
  | z :: zs, hp => by
      obtain ⟨hz, hzs⟩ := List.pairwise_cons.mp hp
      cases hc : cmp x z with
      | lt =>
          simp only [sInsert, hc]
          refine List.pairwise_cons.mpr ⟨?_, hp⟩
          intro y hy
          rcases List.mem_cons.mp hy with h | h
          · rw [h]; exact hc
          · exact hTrans x z y hc (hz y h)
      | eq => simp only [sInsert, hc]; exact hp
      | gt =>
          simp only [sInsert, hc]
          refine List.pairwise_cons.mpr ⟨?_, sInsert_pairwise hTrans hGtLt x hzs⟩
          intro y hy
          rcases mem_sInsert hy with h | h
          · rw [h]; exact hGtLt x z hc
          · exact hz y h

theorem mem_mInsert {cmp : κ → κ → Ordering} {kv : κ × ν} {k : κ} {v : ν} :
    ∀ {m : List (κ × ν)}, kv ∈ mInsert cmp k v m → kv = (k, v) ∨ kv ∈ m
  | [], h => by simpa [mInsert] using h
  | (k', v') :: rest, h => by
      cases hc : cmp k k' with
      | lt =>
          simp only [mInsert, hc] at h
          rcases List.mem_cons.mp h with h1 | h1
          · exact .inl h1
          · exact .inr h1
      | eq =>
          simp only [mInsert, hc] at h
          rcases List.mem_cons.mp h with h1 | h1
          · exact .inl h1
          · exact .inr (.tail _ h1)
      | gt =>
          simp only [mInsert, hc] at h
          rcases List.mem_cons.mp h with h1 | h1
          · exact .inr (by simp [h1])
          · rcases mem_mInsert h1 with h2 | h2
            · exact .inl h2
            · exact .inr (.tail _ h2)

theorem mLookup_mem {cmp : κ → κ → Ordering} {k : κ} {x : ν} : ∀ {m : List (κ × ν)},
    mLookup cmp k m = some x → ∃ k', (k', x) ∈ m ∧ cmp k k' = .eq
  | [], h => by simp [mLookup] at h
  | (k', v') :: rest, h => by
      cases hc : cmp k k' with
      | lt => simp only [mLookup, hc] at h; cases h
      | eq =>
          simp only [mLookup, hc] at h
          injection h with h2
          exact ⟨k', by rw [← h2]; exact .head _, hc⟩
      | gt =>
          simp only [mLookup, hc] at h
          obtain ⟨k'', hmem, heq⟩ := mLookup_mem h
          exact ⟨k'', .tail _ hmem, heq⟩

theorem mLookup_mInsert_self {cmp : κ → κ → Ordering} (hRefl : ∀ a : κ, cmp a a = .eq)
    (k : κ) (v : ν) : ∀ m : List (κ × ν), mLookup cmp k (mInsert cmp k v m) = some v
  | [] => by simp [mInsert, mLookup, hRefl]
  | (k', v') :: rest => by
      cases hc : cmp k k' with
      | lt => simp only [mInsert, hc, mLookup, hRefl]
      | eq => simp only [mInsert, hc, mLookup, hRefl]
      | gt =>
          simp only [mInsert, hc, mLookup]
          exact mLookup_mInsert_self hRefl k v rest

theorem mInsert_noop {cmp : κ → κ → Ordering}
    (hEq : ∀ a b : κ, cmp a b = .eq → a = b) {k : κ} {x : ν} :
    ∀ {m : List (κ × ν)}, mLookup cmp k m = some x → mInsert cmp k x m = m
  | [], h => by simp [mLookup] at h
  | (k', v') :: rest, h => by
      cases hc : cmp k k' with
      | lt => simp only [mLookup, hc] at h; cases h
      | eq =>
          simp only [mLookup, hc] at h
          injection h with h2
          simp only [mInsert, hc]
          rw [hEq k k' hc, h2]
      | gt =>
          simp only [mLookup, hc] at h
          simp only [mInsert, hc]
          rw [mInsert_noop hEq h]

theorem mem_mInsert_of_mem_fresh {cmp : κ → κ → Ordering}
    (hEq : ∀ a b : κ, cmp a b = .eq → a = b) {k : κ} {v : ν} {kv : κ × ν} :
    ∀ {m : List (κ × ν)}, (∀ kv' ∈ m, kv'.1 ≠ k) → kv ∈ m → kv ∈ mInsert cmp k v m
  | [], _, h => by cases h
  | (k', v') :: rest, hfresh, h => by
      cases hc : cmp k k' with
      | lt => simp only [mInsert, hc]; exact .tail _ h
      | eq => exact absurd (hEq k k' hc).symm (hfresh (k', v') (.head _))
      | gt =>
          simp only [mInsert, hc]
          rcases List.mem_cons.mp h with h1 | h1
          · exact h1 ▸ .head _
          · exact .tail _ (mem_mInsert_of_mem_fresh hEq
              (fun kv' hkv' => hfresh kv' (.tail _ hkv')) h1)

/-! ### Vote algebra lemmas -/

theorem anySupersedes_iff : ∀ (l : List SignedVote) (b : SignedVote),
    (anySupersedes l b = true ↔ ∃ v ∈ l, v.supersedes b = true)
  | [], b => by simp [anySupersedes]
  | v :: vs, b => by
      simp [anySupersedes, anySupersedes_iff vs b, List.mem_cons, or_and_right, exists_or]

theorem supersedes_iff (a b : SignedVote) :
    a.supersedes b = true ↔ a = b ∨ ∃ v ∈ a.vote.ballot.children, v.supersedes b = true := by
  obtain ⟨voter, sig, ⟨g, ballot⟩⟩ := a
  cases ballot with
  | Propose r =>
      simp only [SignedVote.supersedes, SignedVote.vote, Vote.ballot, Ballot.children]
      split
      · rename_i h; simp [h]
      · rename_i h; simp [h]
  | Merge vs =>
      simp only [SignedVote.supersedes, SignedVote.vote, Vote.ballot, Ballot.children]
      split
      · rename_i h; simp [h]
      · rename_i h; simp [h, anySupersedes_iff]
  | SuperMajority vs =>
      simp only [SignedVote.supersedes, SignedVote.vote, Vote.ballot, Ballot.children]
      split
      · rename_i h; simp [h]
      · rename_i h; simp [h, anySupersedes_iff]

theorem supersedes_refl (a : SignedVote) : a.supersedes a = true :=
  (supersedes_iff a a).mpr (.inl rfl)

theorem sizeOf_child {v a : SignedVote} (h : v ∈ a.vote.ballot.children) :
    sizeOf v < sizeOf a := by
  obtain ⟨voter, sig, ⟨g, ballot⟩⟩ := a
  cases ballot with
  | Propose r => cases h
  | Merge vs =>
      have := List.sizeOf_lt_of_mem h
      simp only [SignedVote.vote, Vote.ballot, Ballot.children] at this
      simp only [SignedVote.mk.sizeOf_spec, Vote.mk.sizeOf_spec, Ballot.Merge.sizeOf_spec]
      omega
  | SuperMajority vs =>
      have := List.sizeOf_lt_of_mem h
      simp only [SignedVote.vote, Vote.ballot, Ballot.children] at this
      simp only [SignedVote.mk.sizeOf_spec, Vote.mk.sizeOf_spec,
        Ballot.SuperMajority.sizeOf_spec]
      omega

theorem supersedes_size_aux : ∀ (n : Nat) {a b : SignedVote}, sizeOf a ≤ n →
    a.supersedes b = true → sizeOf b ≤ sizeOf a := by
  intro n
  induction n with
  | zero =>
      intro a b hs _
      obtain ⟨voter, sig, vote⟩ := a
      simp [SignedVote.mk.sizeOf_spec] at hs
  | succ n ih =>
      intro a b hs h
      rcases (supersedes_iff a b).mp h with rfl | ⟨v, hv, hvb⟩
      · exact le_refl _
      · have hlt : sizeOf v < sizeOf a := sizeOf_child hv
        have := ih (by omega) hvb
        omega

theorem supersedes_size {a b : SignedVote} (h : a.supersedes b = true) :
    sizeOf b ≤ sizeOf a :=
  supersedes_size_aux (sizeOf a) (le_refl _) h

theorem supersedes_size_strict {a b : SignedVote} (h : a.supersedes b = true)
    (hne : a ≠ b) : sizeOf b < sizeOf a := by
  rcases (supersedes_iff a b).mp h with rfl | ⟨v, hv, hvb⟩
  · exact absurd rfl hne
  · have := supersedes_size hvb
    have := sizeOf_child hv
    omega

theorem supersedes_antisymm {a b : SignedVote} (h1 : a.supersedes b = true)
    (h2 : b.supersedes a = true) : a = b := by
  by_contra hne
  have hab := supersedes_size_strict h1 hne
  have hba := supersedes_size_strict h2 (Ne.symm hne)
  omega

theorem supersedes_trans_aux : ∀ (n : Nat) {a b c : SignedVote}, sizeOf a ≤ n →
    a.supersedes b = true → b.supersedes c = true → a.supersedes c = true := by
  intro n
  induction n with
  | zero =>
      intro a b c hs _ _
      obtain ⟨voter, sig, vote⟩ := a
      simp [SignedVote.mk.sizeOf_spec] at hs
  | succ n ih =>
      intro a b c hs h1 h2
      rcases (supersedes_iff a b).mp h1 with rfl | ⟨v, hv, hvb⟩
      · exact h2
      · refine (supersedes_iff a c).mpr (.inr ⟨v, hv, ?_⟩)
        have hlt : sizeOf v < sizeOf a := sizeOf_child hv
        exact ih (by omega) hvb h2

theorem supersedes_trans {a b c : SignedVote} (h1 : a.supersedes b = true)
    (h2 : b.supersedes c = true) : a.supersedes c = true :=
  supersedes_trans_aux (sizeOf a) (le_refl _) h1 h2

theorem mem_unpackList {u : SignedVote} : ∀ {l : List SignedVote},
    (u ∈ unpackList l ↔ ∃ c ∈ l, u ∈ c.unpack_votes)
  | [] => by simp [unpackList]
  | v :: vs => by
      simp [unpackList, mem_unpackList (l := vs), List.mem_cons, or_and_right, exists_or]

theorem mem_unpack_iff (u sv : SignedVote) :
    u ∈ sv.unpack_votes ↔ u = sv ∨ ∃ c ∈ sv.vote.ballot.children, u ∈ c.unpack_votes := by
  obtain ⟨voter, sig, ⟨g, ballot⟩⟩ := sv
  cases ballot with
  | Propose r =>
      simp [SignedVote.unpack_votes, SignedVote.vote, Vote.ballot, Ballot.children]
  | Merge vs =>
      simp only [SignedVote.unpack_votes, SignedVote.vote, Vote.ballot, Ballot.children]
      rw [mem_sCollect (fun a b => cmpSV_eq_sound a b) u]
      simp [mem_unpackList]
  | SuperMajority vs =>
      simp only [SignedVote.unpack_votes, SignedVote.vote, Vote.ballot, Ballot.children]
      rw [mem_sCollect (fun a b => cmpSV_eq_sound a b) u]
      simp [mem_unpackList]

theorem self_mem_unpack (sv : SignedVote) : sv ∈ sv.unpack_votes :=
  (mem_unpack_iff sv sv).mpr (.inl rfl)

theorem unpack_trans_aux : ∀ (n : Nat) {sv u w : SignedVote}, sizeOf sv ≤ n →
    u ∈ sv.unpack_votes → w ∈ u.unpack_votes → w ∈ sv.unpack_votes := by
  intro n
  induction n with
  | zero =>
      intro sv u w hs _ _
      obtain ⟨voter, sig, vote⟩ := sv
      simp [SignedVote.mk.sizeOf_spec] at hs
  | succ n ih =>
      intro sv u w hs h1 h2
      rcases (mem_unpack_iff u sv).mp h1 with rfl | ⟨c, hc, huc⟩
      · exact h2
      · refine (mem_unpack_iff w sv).mpr (.inr ⟨c, hc, ?_⟩)
        have hlt : sizeOf c < sizeOf sv := sizeOf_child hc
        exact ih (by omega) huc h2

theorem unpack_trans {sv u w : SignedVote} (h1 : u ∈ sv.unpack_votes)
    (h2 : w ∈ u.unpack_votes) : w ∈ sv.unpack_votes :=
  unpack_trans_aux (sizeOf sv) (le_refl _) h1 h2

/-! ### `log_vote` lemmas -/

theorem mLookup_mInsert_ne {cmp : κ → κ → Ordering}
    (hEq : ∀ a b : κ, cmp a b = .eq → a = b)
    (hTrans : ∀ a b c : κ, cmp a b = .lt → cmp b c = .lt → cmp a c = .lt)
    {g k : κ} (hne : g ≠ k) (v : ν) :
    ∀ m : List (κ × ν), mLookup cmp g (mInsert cmp k v m) = mLookup cmp g m
  | [] => by
      cases hc : cmp g k with
      | lt => simp [mInsert, mLookup, hc]
      | eq => exact absurd (hEq g k hc) hne
      | gt => simp [mInsert, mLookup, hc]
  | (k', v') :: rest => by
      cases hkk : cmp k k' with
      | lt =>
          simp only [mInsert, hkk]
          cases hgk : cmp g k with
          | lt =>
              simp only [mLookup, hgk]
              cases hgk' : cmp g k' with
              | lt => simp [mLookup, hgk']
              | eq => exact absurd (hTrans g k k' hgk hkk) (by rw [hgk']; simp)
              | gt => exact absurd (hTrans g k k' hgk hkk) (by rw [hgk']; simp)
          | eq => exact absurd (hEq g k hgk) hne
          | gt => simp [mLookup, hgk]
      | eq =>
          have hk : k = k' := hEq k k' hkk
          subst hk
          simp only [mInsert, hkk]
          cases hgk : cmp g k with
          | lt => simp [mLookup, hgk]
          | eq => exact absurd (hEq g k hgk) hne
          | gt => simp [mLookup, hgk]
      | gt =>
          simp only [mInsert, hkk]
          cases hgk' : cmp g k' with
          | lt => simp [mLookup, hgk']
          | eq => simp [mLookup, hgk']
          | gt =>
              simp only [mLookup, hgk']
              exact mLookup_mInsert_ne hEq hTrans hne v rest

theorem mLookup_logOne_ne {m : List (Nat × SignedVote)} {w : SignedVote} {k : Nat}
    (hne : k ≠ w.voter) : mLookup cmpNat k (State.logOne m w) = mLookup cmpNat k m := by
  unfold State.logOne
  split
  · exact mLookup_mInsert_ne (fun a b => (cmpNat_eq_iff a b).mp)
      (fun a b c => cmpNat_lt_trans) hne w m
  · split
    · exact mLookup_mInsert_ne (fun a b => (cmpNat_eq_iff a b).mp)
        (fun a b c => cmpNat_lt_trans) hne w m
    · rfl

theorem okEntry_logOne_self (m : List (Nat × SignedVote)) (w : SignedVote) :
    okEntry (State.logOne m w) w := by
  unfold State.logOne
  cases hl : mLookup cmpNat w.voter m with
  | none =>
      exact ⟨w, mLookup_mInsert_self cmpNat_refl w.voter w m, fun _ => rfl⟩
  | some e =>
      cases hsup : w.supersedes e with
      | true =>
          simp only [hsup]
          exact ⟨w, mLookup_mInsert_self cmpNat_refl w.voter w m, fun _ => rfl⟩
      | false =>
          simp only [hsup]
          exact ⟨e, hl, fun hs => absurd hs (by simp [hsup])⟩

theorem okEntry_logOne_preserve {m : List (Nat × SignedVote)} {u : SignedVote}
    (w : SignedVote) (h : okEntry m u) : okEntry (State.logOne m w) u := by
  obtain ⟨e, he, himp⟩ := h
  by_cases hvoter : u.voter = w.voter
  · unfold State.logOne
    rw [← hvoter, he]
    dsimp only
    cases hsup : w.supersedes e with
    | true =>
        rw [if_pos rfl]
        refine ⟨w, mLookup_mInsert_self cmpNat_refl u.voter w m, ?_⟩
        intro huw
        have hue : u.supersedes e = true := supersedes_trans huw hsup
        have hue2 := himp hue
        subst hue2
        exact supersedes_antisymm huw hsup
    | false =>
        rw [if_neg (by simp)]
        exact ⟨e, he, himp⟩
  · exact ⟨e, by rw [mLookup_logOne_ne hvoter]; exact he, himp⟩

theorem okEntry_foldl : ∀ (l : List SignedVote) (m : List (Nat × SignedVote))
    (l₀ : List SignedVote), (∀ u ∈ l₀, okEntry m u) →
    ∀ u ∈ l₀ ++ l, okEntry (l.foldl State.logOne m) u
  | [], m, l₀, h0 => by simpa using h0
  | w :: l, m, l₀, h0 => by
      intro u hu
      have h0' : ∀ u ∈ l₀ ++ [w], okEntry (State.logOne m w) u := by
        intro u' hu'
        rcases List.mem_append.mp hu' with h | h
        · exact okEntry_logOne_preserve w (h0 u' h)
        · rw [List.mem_singleton.mp h]
          exact okEntry_logOne_self m w
      have := okEntry_foldl l (State.logOne m w) (l₀ ++ [w]) h0' u
        (by
          rcases List.mem_append.mp hu with h | h
          · exact List.mem_append.mpr (.inl (List.mem_append.mpr (.inl h)))
          · rcases List.mem_cons.mp h with rfl | h
            · exact List.mem_append.mpr (.inl (List.mem_append.mpr (.inr (by simp))))
            · exact List.mem_append.mpr (.inr h))
      simpa using this

theorem foldl_logOne_noop : ∀ (l : List SignedVote) (m : List (Nat × SignedVote)),
    (∀ u ∈ l, okEntry m u) → l.foldl State.logOne m = m
  | [], _, _ => rfl
  | w :: l, m, h => by
      obtain ⟨e, he, himp⟩ := h w (.head _)
      have hstep : State.logOne m w = m := by
        unfold State.logOne
        rw [he]
        dsimp only
        cases hsup : w.supersedes e with
        | true =>
            rw [if_pos rfl]
            have hwe := himp hsup
            subst hwe
            exact mInsert_noop (fun a b => (cmpNat_eq_iff a b).mp) he
        | false => rw [if_neg (by simp)]
      rw [List.foldl_cons, hstep]
      exact foldl_logOne_noop l m (fun u hu => h u (.tail _ hu))

/-- C8 amended: re-delivering an identical accepted packet is not a no-op at
    the state level (`handle_vote` may emit new packets or commit history on
    the duplicate, see the counterexample); what does hold is the idempotence
    of the logging step: logging the same signed vote twice in succession
    leaves the state — in particular the votes map — exactly as after logging
    it once (`log_vote` replaces an entry only under `supersedes`). -/
theorem C8_amended_log_vote_idempotent (s : State) (v : SignedVote) :
    (s.log_vote v).log_vote v = s.log_vote v := by
  have hJ : ∀ u ∈ v.unpack_votes, okEntry ((s.log_vote v).votes) u := by
    have hall := okEntry_foldl v.unpack_votes s.votes [] (by intro u hu; cases hu)
    intro u hu
    exact hall u (by simpa using hu)
  show { s.log_vote v with
      votes := v.unpack_votes.foldl State.logOne (s.log_vote v).votes } = s.log_vote v
  rw [foldl_logOne_noop v.unpack_votes (s.log_vote v).votes hJ]

/-! ### Support lemmas about the state operations -/

@[simp] theorem log_vote_gen (s : State) (v : SignedVote) : (s.log_vote v).gen = s.gen := rfl

@[simp] theorem log_vote_pending (s : State) (v : SignedVote) :
    (s.log_vote v).pending_gen = s.pending_gen := rfl

@[simp] theorem log_vote_history (s : State) (v : SignedVote) :
    (s.log_vote v).history = s.history := rfl

@[simp] theorem log_vote_forced (s : State) (v : SignedVote) :
    (s.log_vote v).forced_reconfigs = s.forced_reconfigs := rfl

@[simp] theorem log_vote_key (s : State) (v : SignedVote) :
    (s.log_vote v).secret_key_share = s.secret_key_share := rfl

/-- `membersGo` reads the state only through `forced_reconfigs`. -/
theorem membersGo_eq_of (s' s : State)
    (hf : s'.forced_reconfigs = s.forced_reconfigs) (g : Generation) :
    ∀ l m, s'.membersGo g l m = s.membersGo g l m := by
  intro l
  induction l with
  | nil => intro m; rfl
  | cons kv rest ih =>
      intro m
      obtain ⟨hg, v⟩ := kv
      unfold State.membersGo
      rw [hf]
      cases hb : v.vote.ballot with
      | Propose r => rfl
      | Merge vs => rfl
      | SuperMajority vs =>
          dsimp only
          split
          · rfl
          · exact ih _

/-- `members` reads the state only through `forced_reconfigs` and `history`. -/
theorem members_eq_of (s' s : State)
    (hf : s'.forced_reconfigs = s.forced_reconfigs) (hh : s'.history = s.history)
    (g : Generation) : s'.members g = s.members g := by
  unfold State.members
  rw [hf, hh]
  split
  · rfl
  · exact membersGo_eq_of s' s hf g s.history _

theorem broadcast_eq (s : State) (v : SignedVote) (ms : List Nat)
    (h : s.members s.gen = .ok ms) :
    s.broadcast v = .ok (ms.map (fun m => s.send v m)) := by
  unfold State.broadcast
  rw [h]
  rfl

theorem is_split_vote_ok (s : State) (V : List SignedVote) (ms : List Nat)
    (h : s.members s.gen = .ok ms) : ∃ b, s.is_split_vote V = .ok b :=
  ⟨_, by unfold State.is_split_vote; rw [h]; rfl⟩

theorem is_super_majority_ok (s : State) (V : List SignedVote) (ms : List Nat)
    (h : s.members s.gen = .ok ms) : ∃ b, s.is_super_majority V = .ok b :=
  ⟨_, by unfold State.is_super_majority; rw [h]; rfl⟩

theorem is_smsm_ok (s : State) (V : List SignedVote) (ms : List Nat)
    (h : s.members s.gen = .ok ms) :
    ∃ b, s.is_super_majority_over_super_majorities V = .ok b :=
  ⟨_, by unfold State.is_super_majority_over_super_majorities; rw [h]; rfl⟩

/-- A successfully validated vote implies `members(gen)` succeeds. -/
theorem validate_members_ok (s : State) (v : SignedVote)
    (h : s.validate_signed_vote v = .ok ()) : ∃ ms, s.members s.gen = .ok ms := by
  obtain ⟨voter, sig, vote⟩ := v
  unfold State.validate_signed_vote at h
  split at h
  · exact absurd h (by simp)
  · split at h
    · exact absurd h (by simp)
    · rename_i ms hms
      exact ⟨ms, hms⟩

/-- A successfully validated vote verifies its signature. -/
theorem validate_verify_signature (s : State) (v : SignedVote)
    (h : s.validate_signed_vote v = .ok ()) : v.verify_signature = .ok () := by
  obtain ⟨voter, sig, vote⟩ := v
  unfold State.validate_signed_vote at h
  split at h
  · exact absurd h (by simp)
  · rename_i hvs
    exact hvs

/-- A successfully validated vote is for the next generation. -/
theorem validate_gen (s : State) (v : SignedVote)
    (h : s.validate_signed_vote v = .ok ()) : v.vote.gen = s.gen + 1 := by
  obtain ⟨voter, sig, vote⟩ := v
  unfold State.validate_signed_vote at h
  split at h
  · exact absurd h (by simp)
  · split at h
    · exact absurd h (by simp)
    · split at h
      · exact absurd h (by simp)
      · rename_i hgen
        simpa using not_not.mp hgen

/-- `cast_vote` succeeds whenever `members(gen)` does on the original state. -/
theorem cast_vote_ok (s : State) (v : SignedVote) (ms : List Nat)
    (h : s.members s.gen = .ok ms) :
    (s.cast_vote v).2 = .ok (ms.map fun m => ({ vote := v, dest := m } : VotePacket)) := by
  unfold State.cast_vote
  dsimp only
  have hm : ((({ s with pending_gen := v.vote.gen } : State).log_vote v)).members
      ((({ s with pending_gen := v.vote.gen } : State).log_vote v)).gen = .ok ms := by
    have heq := members_eq_of ((({ s with pending_gen := v.vote.gen } : State).log_vote v)) s
      rfl rfl ((({ s with pending_gen := v.vote.gen } : State).log_vote v)).gen
    rw [heq]
    exact h
  rw [broadcast_eq _ _ ms hm]
  rfl

/-- Once validation succeeds, `handle_vote` cannot fail: every later
    fallible call reduces to `members(gen)` on a state with unchanged
    `forced_reconfigs`, `history` and `gen`. -/
theorem handle_vote_ok_of_validate (s : State) (v : SignedVote)
    (hval : s.validate_signed_vote v = .ok ()) :
    ∃ pkts, (s.handle_vote v).2 = .ok pkts := by
  obtain ⟨ms, hms⟩ := validate_members_ok s v hval
  have hms2 : ∀ s' : State, s'.forced_reconfigs = s.forced_reconfigs →
      s'.history = s.history → s'.gen = s.gen → s'.members s'.gen = .ok ms := by
    intro s' h1 h2 h3
    rw [h3, members_eq_of s' s h1 h2]
    exact hms
  unfold State.handle_vote
  rw [hval]
  dsimp only
  set S2 : State :=
    { secret_key_share := (s.log_vote v).secret_key_share, gen := (s.log_vote v).gen,
      pending_gen := v.vote.gen, forced_reconfigs := (s.log_vote v).forced_reconfigs,
      history := (s.log_vote v).history, votes := (s.log_vote v).votes,
      faulty := (s.log_vote v).faulty } with hS2
  have hmsL : S2.members S2.gen = .ok ms := hms2 S2 rfl rfl rfl
  obtain ⟨b1, hb1⟩ := is_split_vote_ok S2 (sCollect cmpSV (mValues S2.votes)) ms hmsL
  rw [hb1]
  cases b1 with
  | true =>
      dsimp only
      split
      · split
        · exact ⟨[], rfl⟩
        · exact ⟨_, cast_vote_ok S2 _ ms hmsL⟩
      · exact ⟨_, cast_vote_ok S2 _ ms hmsL⟩
  | false =>
      dsimp only
      obtain ⟨b2, hb2⟩ := is_smsm_ok S2 (sCollect cmpSV (mValues S2.votes)) ms hmsL
      rw [hb2]
      cases b2 with
      | true =>
          dsimp only
          rw [hmsL]
          dsimp only
          obtain ⟨b3, hb3⟩ := is_smsm_ok S2 v.unpack_votes ms hmsL
          rw [hb3]
          cases b3 with
          | true =>
              dsimp only
              split
              · rename_i heq
                exfalso
                revert heq
                split
                · exact fun h => Except.noConfusion h
                · exact fun h => Except.noConfusion h
              · exact ⟨[], rfl⟩
              · exact ⟨[], rfl⟩
          | false =>
              dsimp only
              split
              · rename_i heq
                exfalso
                revert heq
                split
                · exact fun h => Except.noConfusion h
                · exact fun h => Except.noConfusion h
              · exact ⟨[], rfl⟩
              · exact ⟨[], rfl⟩
      | false =>
          dsimp only
          obtain ⟨b4, hb4⟩ := is_super_majority_ok S2 (sCollect cmpSV (mValues S2.votes)) ms hmsL
          rw [hb4]
          cases b4 with
          | true =>
              dsimp only
              split
              · exact ⟨[], rfl⟩
              · exact ⟨_, cast_vote_ok S2 _ ms hmsL⟩
          | false =>
              dsimp only
              split
              · exact ⟨_, cast_vote_ok S2 _ ms hmsL⟩
              · exact ⟨[], rfl⟩

/-- Shape of `handle_vote`'s resulting state: unchanged (on validation error),
    or — after logging the vote and setting `pending_gen` — unchanged further
    (stall branches and fallible-call errors), or extended by casting an own
    vote at the incoming generation, or committed (history entry inserted,
    votes cleared, `gen` advanced) with either a self-signed `SuperMajority`
    vote or the incoming vote itself. -/
theorem handle_vote_cases (s : State) (v : SignedVote) :
    (s.handle_vote v).1 = s
    ∨ (s.validate_signed_vote v = .ok ()
       ∧ ((s.handle_vote v).1 = { s.log_vote v with pending_gen := v.vote.gen }
        ∨ (∃ bal,
            (bal = (Ballot.Merge (sCollect cmpSV (mValues (s.log_vote v).votes))).simplify
              ∨ bal = (Ballot.SuperMajority
                  (sCollect cmpSV (mValues (s.log_vote v).votes))).simplify
              ∨ bal = v.vote.ballot)
            ∧ (s.handle_vote v).1
                = { (s.log_vote v).log_vote
                      (SignedVote.mk s.public_key_share
                        (Sig.mk s.secret_key_share (Vote.mk v.vote.gen bal))
                        (Vote.mk v.vote.gen bal))
                    with pending_gen := v.vote.gen })
        ∨ (∃ smv,
            (smv = SignedVote.mk s.public_key_share
                (Sig.mk s.secret_key_share (Vote.mk v.vote.gen
                  ((Ballot.SuperMajority
                    (sCollect cmpSV (mValues (s.log_vote v).votes))).simplify)))
                (Vote.mk v.vote.gen
                  ((Ballot.SuperMajority
                    (sCollect cmpSV (mValues (s.log_vote v).votes))).simplify))
              ∨ smv = v)
            ∧ (s.handle_vote v).1
                = { s.log_vote v with
                    pending_gen := v.vote.gen
                    history := mInsert cmpNat v.vote.gen smv s.history
                    votes := []
                    gen := v.vote.gen }))) := by
  unfold State.handle_vote
  split
  · exact .inl rfl
  · rename_i hval
    refine .inr ⟨hval, ?_⟩
    dsimp only
    split
    · exact .inl rfl
    · -- split vote detected
      split
      · split
        · exact .inl rfl
        · exact .inr (.inl ⟨_, .inl rfl, rfl⟩)
      · exact .inr (.inl ⟨_, .inl rfl, rfl⟩)
    · -- no split vote
      split
      · exact .inl rfl
      · -- SM/SM detected
        split
        · exact .inl rfl
        · split
          · exact .inl rfl
          · rename_i smv heq
            revert heq
            split
            · intro heq
              injection heq with heq
              injection heq with heq
              exact .inr (.inr ⟨smv, .inl heq.symm, rfl⟩)
            · split
              · intro heq
                cases heq
              · intro heq
                injection heq with heq
                injection heq with heq
                exact .inr (.inr ⟨smv, .inr heq.symm, rfl⟩)
              · intro heq
                injection heq with heq
                cases heq
          · exact .inl rfl
      · -- no SM/SM
        split
        · exact .inl rfl
        · -- super majority detected
          split
          · exact .inl rfl
          · exact .inr (.inl ⟨_, .inr (.inl rfl), rfl⟩)
        · -- contribution branch
          split
          · exact .inr (.inl ⟨_, .inr (.inr rfl), rfl⟩)
          · exact .inl rfl

/-- Shape of `propose`'s resulting state: unchanged on validation error, or
    the self-signed proposal logged with `pending_gen` advanced. -/
theorem propose_cases (s : State) (r : Reconfig) :
    (s.propose r).1 = s
    ∨ (s.validate_signed_vote (s.sign_vote (Vote.mk (s.gen + 1) (.Propose r))) = .ok ()
       ∧ (s.propose r).1
           = { s.log_vote (s.sign_vote (Vote.mk (s.gen + 1) (.Propose r)))
               with pending_gen := s.gen + 1 }) := by
  unfold State.propose
  dsimp only
  split
  · exact .inl rfl
  · rename_i hval
    exact .inr ⟨hval, rfl⟩

@[simp] theorem force_join_gen (s : State) (a : Nat) : (s.force_join a).gen = s.gen := rfl

@[simp] theorem force_join_pending (s : State) (a : Nat) :
    (s.force_join a).pending_gen = s.pending_gen := rfl

@[simp] theorem force_join_history (s : State) (a : Nat) :
    (s.force_join a).history = s.history := rfl

@[simp] theorem force_join_votes (s : State) (a : Nat) :
    (s.force_join a).votes = s.votes := rfl

@[simp] theorem force_leave_gen (s : State) (a : Nat) : (s.force_leave a).gen = s.gen := rfl

@[simp] theorem force_leave_pending (s : State) (a : Nat) :
    (s.force_leave a).pending_gen = s.pending_gen := rfl

@[simp] theorem force_leave_history (s : State) (a : Nat) :
    (s.force_leave a).history = s.history := rfl

@[simp] theorem force_leave_votes (s : State) (a : Nat) :
    (s.force_leave a).votes = s.votes := rfl

/-! ### C7: errors leave the state unchanged -/

/-- C7: whenever `propose` or `handle_vote` returns an error, the state —
    `gen`, `pending_gen`, `votes`, `history` and `forced_reconfigs` — is left
    exactly as it was before the call: errors only arise during validation,
    which precedes every mutation. -/
theorem C7_errors_leave_state_unchanged (s : State) :
    (∀ r e, (s.propose r).2 = .error e → (s.propose r).1 = s)
    ∧ (∀ v e, (s.handle_vote v).2 = .error e → (s.handle_vote v).1 = s) := by
  constructor
  · intro r e h
    unfold State.propose at h ⊢
    dsimp only at h ⊢
    cases hval : s.validate_signed_vote (s.sign_vote (Vote.mk (s.gen + 1) (.Propose r))) with
    | error err => rfl
    | ok u =>
        cases u
        rw [hval] at h
        obtain ⟨ms, hms⟩ := validate_members_ok _ _ hval
        rw [cast_vote_ok _ _ ms hms] at h
        exact absurd h (by simp)
  · intro v e h
    cases hval : s.validate_signed_vote v with
    | error err =>
        unfold State.handle_vote
        rw [hval]
    | ok u =>
        cases u
        obtain ⟨pkts, hp⟩ := handle_vote_ok_of_validate s v hval
        rw [hp] at h
        exact absurd h (by simp)

/-- C7 witness: a memberless state rejects both entry points and is unchanged. -/
theorem C7_witness :
    ((State.new 1).propose (.Join 2)).1 = State.new 1
      ∧ ((State.new 1).handle_vote strayVote).1 = State.new 1 :=
  ⟨(C7_errors_leave_state_unchanged (State.new 1)).1 (.Join 2)
      (.VoteFromNonMember 1 []) (by decide),
   (C7_errors_leave_state_unchanged (State.new 1)).2 strayVote
      (.VoteFromNonMember 5 []) (by decide)⟩

/-! ### Reachability invariants -/

/-- Derived comparator law: `lt` flips to `gt`. -/
theorem cmp_lt_gt {cmp : α → α → Ordering}
    (hEq : ∀ a b : α, cmp a b = .eq → a = b) (hRefl : ∀ a : α, cmp a a = .eq)
    (hTrans : ∀ a b c : α, cmp a b = .lt → cmp b c = .lt → cmp a c = .lt)
    {a b : α} (h : cmp a b = .lt) : cmp b a = .gt := by
  cases hba : cmp b a with
  | lt =>
      have := hTrans a b a h hba
      rw [hRefl] at this
      cases this
  | eq =>
      rw [hEq b a hba, hRefl] at h
      cases h
  | gt => rfl

/-- The forced-reconfig sets of a reachable state are strictly sorted and
    never contain both `Join(a)` and `Leave(a)` for the same actor. -/
theorem reachable_forced_inv {s : State} (h : Reachable s) :
    ∀ kv ∈ s.forced_reconfigs,
      kv.2.Pairwise (fun a b => cmpReconfig a b = .lt)
      ∧ ∀ a, ¬(Reconfig.Join a ∈ kv.2 ∧ Reconfig.Leave a ∈ kv.2) := by
  induction h with
  | new k => intro kv hkv; cases hkv
  | @step s s' hr hstep ih =>
      cases hstep with
      | propose r =>
          rcases propose_cases s r with h | ⟨_, h⟩ <;> rw [h] <;> exact ih
      | handle_vote v =>
          rcases handle_vote_cases s v with h | ⟨_, h | ⟨bal, _, h⟩ | ⟨smv, _, h⟩⟩ <;>
            rw [h] <;> exact ih
      | force_join a =>
          intro kv hkv
          unfold State.force_join at hkv
          dsimp only at hkv
          rcases mem_mInsert hkv with h | h
          · subst h
            dsimp only
            have hold : ((mLookup cmpNat s.gen s.forced_reconfigs).getD []).Pairwise
                  (fun a b => cmpReconfig a b = .lt)
                ∧ ∀ b, ¬(Reconfig.Join b ∈ (mLookup cmpNat s.gen s.forced_reconfigs).getD []
                    ∧ Reconfig.Leave b ∈ (mLookup cmpNat s.gen s.forced_reconfigs).getD []) := by
              cases hl : mLookup cmpNat s.gen s.forced_reconfigs with
              | none => exact ⟨List.Pairwise.nil, by simp⟩
              | some o =>
                  obtain ⟨k', hmem, _⟩ := mLookup_mem hl
                  exact ⟨(ih (k', o) hmem).1, (ih (k', o) hmem).2⟩
            obtain ⟨hsort, hconf⟩ := hold
            have hsort2 := @sRemove_pairwise _ cmpReconfig (Reconfig.Leave a) _ hsort
            refine ⟨@sInsert_pairwise _ cmpReconfig (fun x y z h1 h2 => cmpReconfig_lt_trans h1 h2)
                (fun x y h => cmpReconfig_gt_lt h) _ _ hsort2, ?_⟩
            intro b hbc
            obtain ⟨hJ, hL⟩ := hbc
            rcases mem_sInsert hJ with hJ1 | hJ1
            · -- Join b is the inserted Join a, so b = a
              injection hJ1 with hba
              subst hba
              rcases mem_sInsert hL with hL1 | hL1
              · cases hL1
              · exact not_mem_sRemove_self (fun x y => (cmpReconfig_eq_iff x y).mp)
                  cmpReconfig_refl (fun x y z h1 h2 => cmpReconfig_lt_trans h1 h2) _ hsort hL1
            · rcases mem_sInsert hL with hL1 | hL1
              · cases hL1
              · exact hconf b ⟨mem_sRemove hJ1, mem_sRemove hL1⟩
          · exact ih kv h
      | force_leave a =>
          intro kv hkv
          unfold State.force_leave at hkv
          dsimp only at hkv
          rcases mem_mInsert hkv with h | h
          · subst h
            dsimp only
            have hold : ((mLookup cmpNat s.gen s.forced_reconfigs).getD []).Pairwise
                  (fun a b => cmpReconfig a b = .lt)
                ∧ ∀ b, ¬(Reconfig.Join b ∈ (mLookup cmpNat s.gen s.forced_reconfigs).getD []
                    ∧ Reconfig.Leave b ∈ (mLookup cmpNat s.gen s.forced_reconfigs).getD []) := by
              cases hl : mLookup cmpNat s.gen s.forced_reconfigs with
              | none => exact ⟨List.Pairwise.nil, by simp⟩
              | some o =>
                  obtain ⟨k', hmem, _⟩ := mLookup_mem hl
                  exact ⟨(ih (k', o) hmem).1, (ih (k', o) hmem).2⟩
            obtain ⟨hsort, hconf⟩ := hold
            have hsort2 := @sRemove_pairwise _ cmpReconfig (Reconfig.Join a) _ hsort
            refine ⟨@sInsert_pairwise _ cmpReconfig (fun x y z h1 h2 => cmpReconfig_lt_trans h1 h2)
                (fun x y h => cmpReconfig_gt_lt h) _ _ hsort2, ?_⟩
            intro b hbc
            obtain ⟨hJ, hL⟩ := hbc
            rcases mem_sInsert hL with hL1 | hL1
            · -- Leave b is the inserted Leave a, so b = a
              injection hL1 with hba
              subst hba
              rcases mem_sInsert hJ with hJ1 | hJ1
              · cases hJ1
              · exact not_mem_sRemove_self (fun x y => (cmpReconfig_eq_iff x y).mp)
                  cmpReconfig_refl (fun x y z h1 h2 => cmpReconfig_lt_trans h1 h2) _ hsort hJ1
            · rcases mem_sInsert hJ with hJ1 | hJ1
              · cases hJ1
              · exact hconf b ⟨mem_sRemove hJ1, mem_sRemove hL1⟩
          · exact ih kv h
      | anti_entropy g p => exact ih

/-! ### C10: forced reconfigs never conflict -/

/-- C10: after `force_join a` the forced set at the current generation holds
    `Join a` and not `Leave a`; after `force_leave a` it holds `Leave a` and
    not `Join a`; and in every reachable state, no forced-reconfig entry ever
    contains both `Join a` and `Leave a` for the same actor. -/
theorem C10_forced_reconfigs_exclusive {s : State} (h : Reachable s) :
    (∀ a, ∃ rs, mLookup cmpNat s.gen (s.force_join a).forced_reconfigs = some rs
      ∧ Reconfig.Join a ∈ rs ∧ Reconfig.Leave a ∉ rs)
    ∧ (∀ a, ∃ rs, mLookup cmpNat s.gen (s.force_leave a).forced_reconfigs = some rs
      ∧ Reconfig.Leave a ∈ rs ∧ Reconfig.Join a ∉ rs)
    ∧ (∀ kv ∈ s.forced_reconfigs, ∀ a,
        ¬(Reconfig.Join a ∈ kv.2 ∧ Reconfig.Leave a ∈ kv.2)) := by
  have hinv := reachable_forced_inv h
  have hold : ((mLookup cmpNat s.gen s.forced_reconfigs).getD []).Pairwise
      (fun a b => cmpReconfig a b = .lt) := by
    cases hl : mLookup cmpNat s.gen s.forced_reconfigs with
    | none => exact List.Pairwise.nil
    | some o =>
        obtain ⟨k', hmem, _⟩ := mLookup_mem hl
        exact (hinv (k', o) hmem).1
  refine ⟨?_, ?_, fun kv hkv => (hinv kv hkv).2⟩
  · intro a
    refine ⟨_, mLookup_mInsert_self cmpNat_refl s.gen _ s.forced_reconfigs, ?_, ?_⟩
    · exact mem_sInsert_self (fun x y => (cmpReconfig_eq_iff x y).mp) _ _
    · intro hL
      rcases mem_sInsert hL with h1 | h1
      · cases h1
      · exact not_mem_sRemove_self (fun x y => (cmpReconfig_eq_iff x y).mp)
          cmpReconfig_refl (fun x y z h1 h2 => cmpReconfig_lt_trans h1 h2) _ hold h1
  · intro a
    refine ⟨_, mLookup_mInsert_self cmpNat_refl s.gen _ s.forced_reconfigs, ?_, ?_⟩
    · exact mem_sInsert_self (fun x y => (cmpReconfig_eq_iff x y).mp) _ _
    · intro hJ
      rcases mem_sInsert hJ with h1 | h1
      · cases h1
      · exact not_mem_sRemove_self (fun x y => (cmpReconfig_eq_iff x y).mp)
          cmpReconfig_refl (fun x y z h1 h2 => cmpReconfig_lt_trans h1 h2) _ hold h1

/-- C10 witness: the concrete two-member bootstrap state. -/
theorem C10_forced_reconfigs_exclusive_witness :
    (∃ rs, mLookup cmpNat twoForcedState.gen
        (twoForcedState.force_join 9).forced_reconfigs = some rs
      ∧ Reconfig.Join 9 ∈ rs ∧ Reconfig.Leave 9 ∉ rs)
    ∧ (∃ rs, mLookup cmpNat twoForcedState.gen
        (twoForcedState.force_leave 2).forced_reconfigs = some rs
      ∧ Reconfig.Leave 2 ∈ rs ∧ Reconfig.Join 2 ∉ rs) :=
  have hreach : Reachable twoForcedState :=
    .step (.step (.new 1) (.force_join (State.new 1) 2)) (.force_join ((State.new 1).force_join 2) 4)
  ⟨(C10_forced_reconfigs_exclusive hreach).1 9,
   (C10_forced_reconfigs_exclusive hreach).2.1 2⟩

/-- Inserting a key greater than every present key appends it. -/
theorem mInsert_append {k : Nat} (v : ν) : ∀ {m : List (Nat × ν)},
    (∀ k' ∈ m.map Prod.fst, k' < k) →
    (mInsert cmpNat k v m).map Prod.fst = m.map Prod.fst ++ [k]
  | [], _ => rfl
  | (k', v') :: rest, hfresh => by
      have hk : k' < k := hfresh k' (by simp)
      have hc : cmpNat k k' = .gt := (cmpNat_gt_iff k k').mpr hk
      simp only [mInsert, hc, List.map_cons, List.cons_append]
      rw [mInsert_append v (fun g hg => hfresh g (by simp [hg]))]

/-- The history keys of a reachable state are exactly `1, …, gen`. -/
theorem reachable_hist_keys {s : State} (h : Reachable s) :
    s.history.map Prod.fst = List.range' 1 s.gen := by
  induction h with
  | new k => rfl
  | @step s s' hr hstep ih =>
      cases hstep with
      | propose r =>
          rcases propose_cases s r with h | ⟨_, h⟩ <;> rw [h] <;> exact ih
      | handle_vote v =>
          rcases handle_vote_cases s v with h | ⟨hval, h | ⟨bal, _, h⟩ | ⟨smv, _, h⟩⟩
          · rw [h]; exact ih
          · rw [h]; exact ih
          · rw [h]; exact ih
          · rw [h]
            have hgen : v.vote.gen = s.gen + 1 := validate_gen s v hval
            show (mInsert cmpNat v.vote.gen smv s.history).map Prod.fst
              = List.range' 1 v.vote.gen
            rw [mInsert_append (k := v.vote.gen) smv (fun k' hk' => by
              rw [ih] at hk'
              have h2 := (List.mem_range'_1.mp hk').2
              rw [hgen]
              omega), ih, hgen,
              show List.range' 1 (s.gen + 1) = List.range' 1 s.gen ++ [s.gen + 1] from by
                rw [List.range'_concat]
                congr 2
                omega]
      | force_join a => exact ih
      | force_leave a => exact ih
      | anti_entropy g p => exact ih

/-! ### C4: generation monotonicity and append-only history -/

/-- C4: in every reachable state the history keys are exactly the contiguous
    range `1, …, gen` (so for `gen ≥ 1` the key set is `{1, …, gen}`, and at
    `gen = 0` the history is empty), and across every further operation `gen`
    never decreases and history entries are never removed or overwritten. -/
theorem C4_gen_monotone_history_contiguous {s : State} (h : Reachable s) :
    s.history.map Prod.fst = List.range' 1 s.gen
    ∧ ∀ s', Step s s' → s.gen ≤ s'.gen ∧ ∀ kv ∈ s.history, kv ∈ s'.history := by
  refine ⟨reachable_hist_keys h, ?_⟩
  intro s' hstep
  cases hstep with
  | propose r =>
      rcases propose_cases s r with heq | ⟨_, heq⟩ <;> rw [heq] <;>
        exact ⟨le_refl _, fun kv hkv => hkv⟩
  | handle_vote v =>
      rcases handle_vote_cases s v with heq | ⟨hval, heq | ⟨bal, _, heq⟩ | ⟨smv, _, heq⟩⟩
      · rw [heq]; exact ⟨le_refl _, fun kv hkv => hkv⟩
      · rw [heq]; exact ⟨le_refl _, fun kv hkv => hkv⟩
      · rw [heq]; exact ⟨le_refl _, fun kv hkv => hkv⟩
      · rw [heq]
        have hgen : v.vote.gen = s.gen + 1 := validate_gen s v hval
        constructor
        · show s.gen ≤ v.vote.gen
          rw [hgen]
          exact Nat.le_succ s.gen
        · intro kv hkv
          show kv ∈ mInsert cmpNat v.vote.gen smv s.history
          refine mem_mInsert_of_mem_fresh (fun a b => (cmpNat_eq_iff a b).mp) ?_ hkv
          intro kv' hkv'
          have h1 : kv'.1 ∈ s.history.map Prod.fst := List.mem_map.mpr ⟨kv', hkv', rfl⟩
          rw [reachable_hist_keys h] at h1
          have h2 := (List.mem_range'_1.mp h1).2
          rw [hgen]
          omega
  | force_join a => exact ⟨le_refl _, fun kv hkv => hkv⟩
  | force_leave a => exact ⟨le_refl _, fun kv hkv => hkv⟩
  | anti_entropy g p => exact ⟨le_refl _, fun kv hkv => hkv⟩

/-- C4 witness: applied to the state after the double delivery (generation 1,
    history key 1) and a further force_join step. -/
theorem C4_gen_monotone_history_contiguous_witness :
    secondDelivery.1.history.map Prod.fst = List.range' 1 secondDelivery.1.gen :=
  have hreach : Reachable secondDelivery.1 :=
    .step (.step (.step (.new 1) (.force_join (State.new 1) 1))
        (.handle_vote oneMemberState proposeJoin2))
      (.handle_vote firstDelivery.1 proposeJoin2)
  (C4_gen_monotone_history_contiguous hreach).1

/-! ### C2: signature soundness of stored votes -/

/-- A vote self-signed with the state's own key pair verifies. -/
theorem mk_self_verifies (s : State) (v : Vote) :
    (SignedVote.mk s.public_key_share (Sig.mk s.secret_key_share v) v).verify_signature
      = .ok () := by
  unfold SignedVote.verify_signature
  simp [State.public_key_share]

/-- In every reachable state, every `SignedVote` stored in the history map
    verifies: history entries are either self-signed or fully validated. -/
theorem reachable_history_verified {s : State} (h : Reachable s) :
    ∀ kv ∈ s.history, kv.2.verify_signature = .ok () := by
  induction h with
  | new k => intro kv hkv; cases hkv
  | @step s s' hr hstep ih =>
      cases hstep with
      | propose r =>
          rcases propose_cases s r with h | ⟨_, h⟩ <;> rw [h] <;> exact ih
      | handle_vote v =>
          rcases handle_vote_cases s v with h | ⟨hval, h | ⟨bal, _, h⟩ | ⟨smv, hsmv, h⟩⟩
          · rw [h]; exact ih
          · rw [h]; exact ih
          · rw [h]; exact ih
          · rw [h]
            intro kv hkv
            have hkv' : kv ∈ mInsert cmpNat v.vote.gen smv s.history := hkv
            rcases mem_mInsert hkv' with heq | hmem
            · rw [heq]
              show smv.verify_signature = .ok ()
              rcases hsmv with rfl | rfl
              · exact mk_self_verifies s _
              · exact validate_verify_signature s _ hval
            · exact ih kv hmem
      | force_join a => exact ih
      | force_leave a => exact ih
      | anti_entropy g p => exact ih

/-- C2 counterexample: delivering `forgedChildrenVote` (a validly signed
    `SuperMajority` vote with forged children) is accepted, and afterwards the
    votes map holds `forgedChild3` under voter `3`, whose signature does not
    verify — stored votes-map entries need not verify. -/
theorem C2_cex :
    forgedDelivery.2.isOk = true
      ∧ mLookup cmpNat 3 forgedDelivery.1.votes = some forgedChild3
      ∧ forgedChild3.verify_signature = .error .InvalidSignature := by
  decide

/-- C2 amended: in every reachable state every `SignedVote` stored in the
    history map verifies against its voter; the corresponding property for the
    votes map fails, because `log_vote` also logs the unpacked children of
    `Merge`/`SuperMajority` ballots and child signatures are never checked. -/
theorem C2_amended_history_verified {s : State} (h : Reachable s) :
    s.history.all (fun kv => decide (kv.2.verify_signature = .ok ())) = true := by
  rw [List.all_eq_true]
  intro kv hkv
  exact decide_eq_true (reachable_history_verified h kv hkv)

/-- C2 witness: the history-soundness theorem applied to the state after the
    double delivery in the one-member scenario. -/
theorem C2_amended_history_verified_witness :
    secondDelivery.1.history.all (fun kv => decide (kv.2.verify_signature = .ok ())) = true :=
  C2_amended_history_verified
    (.step (.step (.step (.new 1) (.force_join (State.new 1) 1))
        (.handle_vote oneMemberState proposeJoin2))
      (.handle_vote firstDelivery.1 proposeJoin2))

/-! ### C3: generations of the votes map -/

theorem mem_simplify_aux (w : List SignedVote) : ∀ {l acc : List SignedVote} {u : SignedVote},
    u ∈ l.foldl (fun simpler_votes v =>
      if w.any (fun other_v => if other_v = v then false else other_v.supersedes v) then
        simpler_votes
      else
        sInsert cmpSV v simpler_votes) acc →
    u ∈ acc ∨ u ∈ l
  | [], _, _, h => .inl h
  | v :: vs, acc, u, h => by
      rcases mem_simplify_aux w (l := vs) h with hacc | hvs
      · revert hacc
        dsimp only
        split
        · exact fun hacc => .inl hacc
        · intro hacc
          rcases mem_sInsert hacc with rfl | hacc2
          · exact .inr (.head _)
          · exact .inl hacc2
      · exact .inr (.tail _ hvs)

/-- `simplify_votes` only keeps votes of the input set. -/
theorem mem_simplify {u : SignedVote} {l : List SignedVote}
    (h : u ∈ simplify_votes l) : u ∈ l := by
  unfold simplify_votes at h
  rcases mem_simplify_aux l h with h0 | h1
  · cases h0
  · exact h1

/-- Every entry after a `logOne` step is an old entry or holds the logged vote. -/
theorem mem_logOne {m : List (Nat × SignedVote)} {w : SignedVote} {kv : Nat × SignedVote}
    (h : kv ∈ State.logOne m w) : kv ∈ m ∨ kv.2 = w := by
  unfold State.logOne at h
  split at h
  · rcases mem_mInsert h with heq | hm
    · exact .inr (by rw [heq])
    · exact .inl hm
  · split at h
    · rcases mem_mInsert h with heq | hm
      · exact .inr (by rw [heq])
      · exact .inl hm
    · exact .inl h

/-- Every entry after folding `logOne` over a list is an old entry or holds a
    vote of the list. -/
theorem mem_foldl_logOne : ∀ {l : List SignedVote} {m : List (Nat × SignedVote)}
    {kv : Nat × SignedVote}, kv ∈ l.foldl State.logOne m → kv ∈ m ∨ kv.2 ∈ l
  | [], _, _, h => .inl h
  | w :: ws, m, kv, h => by
      rcases mem_foldl_logOne (l := ws) h with hm | hl
      · rcases mem_logOne hm with hm' | he
        · exact .inl hm'
        · exact .inr (by rw [he]; exact .head _)
      · exact .inr (.tail _ hl)

/-- The votes-map invariant under uniform-generation deliveries: every unpacked
    descendant of every stored vote is at `pending_gen`, and `pending_gen` is
    `gen` or `gen + 1`, the latter whenever the votes map is non-empty. -/
theorem reachableU_inv3 {s : State} (h : ReachableU s) :
    (∀ kv ∈ s.votes, ∀ u ∈ kv.2.unpack_votes, u.vote.gen = s.pending_gen)
    ∧ (s.pending_gen = s.gen ∨ s.pending_gen = s.gen + 1)
    ∧ (s.votes ≠ [] → s.pending_gen = s.gen + 1) := by
  induction h with
  | new k => exact ⟨fun kv hkv => (by cases hkv), .inl rfl, fun hne => absurd rfl hne⟩
  | @step s s' hr hstep ih =>
      obtain ⟨ih1, ih2, ih3⟩ := ih
      cases hstep with
      | propose r =>
          rcases propose_cases s r with h | ⟨hval, h⟩
          · rw [h]; exact ⟨ih1, ih2, ih3⟩
          · rw [h]
            refine ⟨?_, .inr rfl, fun _ => rfl⟩
            intro kv hkv u hu
            show u.vote.gen = s.gen + 1
            have hkv' : kv ∈ (s.sign_vote
                (Vote.mk (s.gen + 1) (.Propose r))).unpack_votes.foldl State.logOne s.votes :=
              hkv
            rcases mem_foldl_logOne hkv' with hm | hl
            · rw [ih1 kv hm u hu, ih3 (List.ne_nil_of_mem hm)]
            · have h2 : kv.2 = s.sign_vote (Vote.mk (s.gen + 1) (.Propose r)) :=
                List.mem_singleton.mp hl
              rw [h2] at hu
              have h3 : u = s.sign_vote (Vote.mk (s.gen + 1) (.Propose r)) :=
                List.mem_singleton.mp hu
              rw [h3]
              rfl
      | handle_vote v hUnif =>
          have hm' : ∀ kv ∈ v.unpack_votes.foldl State.logOne s.votes,
              ∀ u ∈ kv.2.unpack_votes,
              s.validate_signed_vote v = .ok () → u.vote.gen = v.vote.gen := by
            intro kv hkv u hu hval
            rcases mem_foldl_logOne hkv with hm | hl
            · rw [ih1 kv hm u hu, ih3 (List.ne_nil_of_mem hm), validate_gen s v hval]
            · exact hUnif u (unpack_trans hl hu)
          rcases handle_vote_cases s v with h | ⟨hval, h | ⟨bal, hbal, h⟩ | ⟨smv, hsmv, h⟩⟩
          · rw [h]; exact ⟨ih1, ih2, ih3⟩
          · rw [h]
            have hgen := validate_gen s v hval
            refine ⟨?_, .inr ?_, fun _ => ?_⟩
            · intro kv hkv u hu
              show u.vote.gen = v.vote.gen
              exact hm' kv hkv u hu hval
            · show v.vote.gen = s.gen + 1
              exact hgen
            · show v.vote.gen = s.gen + 1
              exact hgen
          · rw [h]
            have hgen := validate_gen s v hval
            refine ⟨?_, .inr ?_, fun _ => ?_⟩
            · intro kv hkv u hu
              show u.vote.gen = v.vote.gen
              have hnv : ∀ w ∈ (SignedVote.mk s.public_key_share
                  (Sig.mk s.secret_key_share (Vote.mk v.vote.gen bal))
                  (Vote.mk v.vote.gen bal)).unpack_votes, w.vote.gen = v.vote.gen := by
                intro w hw
                rcases (mem_unpack_iff w _).mp hw with rfl | ⟨c, hc, hwc⟩
                · rfl
                · rcases hbal with rfl | rfl | rfl
                  · have hc2 : c ∈ simplify_votes
                        (sCollect cmpSV (mValues ((s.log_vote v).votes))) := hc
                    have hc4 : c ∈ mValues ((s.log_vote v).votes) :=
                      (mem_sCollect cmpSV_eq_sound c _).mp (mem_simplify hc2)
                    obtain ⟨kv', hkv', hkv2⟩ := List.mem_map.mp hc4
                    exact hm' kv' hkv' w (by rw [hkv2]; exact hwc) hval
                  · have hc2 : c ∈ simplify_votes
                        (sCollect cmpSV (mValues ((s.log_vote v).votes))) := hc
                    have hc4 : c ∈ mValues ((s.log_vote v).votes) :=
                      (mem_sCollect cmpSV_eq_sound c _).mp (mem_simplify hc2)
                    obtain ⟨kv', hkv', hkv2⟩ := List.mem_map.mp hc4
                    exact hm' kv' hkv' w (by rw [hkv2]; exact hwc) hval
                  · exact hUnif w ((mem_unpack_iff w v).mpr (.inr ⟨c, hc, hwc⟩))
              have hkv' : kv ∈ (SignedVote.mk s.public_key_share
                  (Sig.mk s.secret_key_share (Vote.mk v.vote.gen bal))
                  (Vote.mk v.vote.gen bal)).unpack_votes.foldl State.logOne
                  (v.unpack_votes.foldl State.logOne s.votes) := hkv
              rcases mem_foldl_logOne hkv' with hm | hl
              · exact hm' kv hm u hu hval
              · exact hnv u (unpack_trans hl hu)
            · show v.vote.gen = s.gen + 1
              exact hgen
            · show v.vote.gen = s.gen + 1
              exact hgen
          · rw [h]
            exact ⟨fun kv hkv => (by cases hkv), .inl rfl, fun hne => absurd rfl hne⟩
      | force_join a => exact ⟨ih1, ih2, ih3⟩
      | force_leave a => exact ⟨ih1, ih2, ih3⟩
      | anti_entropy g p => exact ⟨ih1, ih2, ih3⟩

/-- C3 counterexample: the state after delivering `forgedChildrenVote` is
    reachable, yet its votes map stores `forgedChild3` (generation 42) under
    voter `3` while `pending_gen` is 1 — the unrestricted invariant
    `votes[v].vote.gen == pending_gen` fails because unvalidated children of a
    `SuperMajority` ballot are logged. -/
theorem C3_cex :
    Reachable forgedDelivery.1
    ∧ mLookup cmpNat 3 forgedDelivery.1.votes = some forgedChild3
    ∧ forgedChild3.vote.gen = 42
    ∧ forgedDelivery.1.pending_gen = 1 := by
  refine ⟨?_, by decide, by decide, by decide⟩
  exact .step (.step (.step (.new 1) (.force_join (State.new 1) 2))
      (.force_join ((State.new 1).force_join 2) 4))
    (.handle_vote twoForcedState forgedChildrenVote)

/-- C3 amended: restricted to deliveries whose signed votes have uniform nested
    generations (every unpacked descendant carries the enclosing generation),
    every entry of the votes map satisfies `votes[v].vote.gen == pending_gen`. -/
theorem C3_amended_votes_gen_pending {s : State} (h : ReachableU s) :
    s.votes.all (fun kv => decide (kv.2.vote.gen = s.pending_gen)) = true := by
  rw [List.all_eq_true]
  intro kv hkv
  exact decide_eq_true ((reachableU_inv3 h).1 kv hkv kv.2 (self_mem_unpack kv.2))

/-- C3 witness: the amended invariant applied to the state after the first
    accepted delivery in the one-member scenario. -/
theorem C3_amended_votes_gen_pending_witness :
    firstDelivery.1.votes.all
      (fun kv => decide (kv.2.vote.gen = firstDelivery.1.pending_gen)) = true :=
  C3_amended_votes_gen_pending
    (.step (.step (.new 1) (.force_join (State.new 1) 1))
      (.handle_vote oneMemberState proposeJoin2 (by
        intro u hu
        rw [List.mem_singleton.mp hu]
        rfl)))

/-! ### C5: `resolve_votes` -/

theorem mInsert_pairwise {cmp : κ → κ → Ordering}
    (hEq : ∀ a b : κ, cmp a b = .eq → a = b)
    (hTrans : ∀ a b c : κ, cmp a b = .lt → cmp b c = .lt → cmp a c = .lt)
    (hGtLt : ∀ a b : κ, cmp a b = .gt → cmp b a = .lt) (k : κ) (v : ν) :
    ∀ {m : List (κ × ν)}, (m.map Prod.fst).Pairwise (fun a b => cmp a b = .lt) →
      ((mInsert cmp k v m).map Prod.fst).Pairwise (fun a b => cmp a b = .lt)
  | [], _ => by simp [mInsert]
  | (k', v') :: rest, hp => by
      have hz : ∀ y ∈ rest.map Prod.fst, cmp k' y = .lt :=
        (List.pairwise_cons.mp hp).1
      have hrest : (rest.map Prod.fst).Pairwise (fun a b => cmp a b = .lt) :=
        (List.pairwise_cons.mp hp).2
      cases hc : cmp k k' with
      | lt =>
          simp only [mInsert, hc, List.map_cons]
          refine List.pairwise_cons.mpr ⟨?_, hp⟩
          intro y hy
          rcases List.mem_cons.mp hy with rfl | h
          · exact hc
          · exact hTrans k k' y hc (hz y h)
      | eq =>
          have hk := hEq k k' hc
          subst hk
          simp only [mInsert, hc, List.map_cons]
          exact List.pairwise_cons.mpr ⟨hz, hrest⟩
      | gt =>
          simp only [mInsert, hc, List.map_cons]
          refine List.pairwise_cons.mpr ⟨?_, mInsert_pairwise hEq hTrans hGtLt k v hrest⟩
          intro y hy
          obtain ⟨kv2, hkv2, rfl⟩ := List.mem_map.mp hy
          rcases mem_mInsert hkv2 with heq | h
          · rw [heq]
            exact hGtLt k k' hc
          · exact hz kv2.1 (List.mem_map.mpr ⟨kv2, h, rfl⟩)

theorem mLookup_of_mem_sorted {cmp : κ → κ → Ordering}
    (hEq : ∀ a b : κ, cmp a b = .eq → a = b) (hRefl : ∀ a : κ, cmp a a = .eq)
    (hTrans : ∀ a b c : κ, cmp a b = .lt → cmp b c = .lt → cmp a c = .lt) :
    ∀ {m : List (κ × ν)} {kv : κ × ν},
      (m.map Prod.fst).Pairwise (fun a b => cmp a b = .lt) → kv ∈ m →
      mLookup cmp kv.1 m = some kv.2
  | [], kv, _, h => absurd h (List.not_mem_nil kv)
  | (k', v') :: rest, kv, hp, h => by
      rcases List.mem_cons.mp h with rfl | h2
      · simp [mLookup, hRefl]
      · have hz : ∀ y ∈ rest.map Prod.fst, cmp k' y = .lt :=
          (List.pairwise_cons.mp hp).1
        have hlt : cmp k' kv.1 = .lt := hz kv.1 (List.mem_map.mpr ⟨kv, h2, rfl⟩)
        have hgt : cmp kv.1 k' = .gt := cmp_lt_gt hEq hRefl hTrans hlt
        show mLookup cmp kv.1 ((k', v') :: rest) = some kv.2
        simp only [mLookup, hgt]
        exact mLookup_of_mem_sorted hEq hRefl hTrans
          (List.pairwise_cons.mp hp).2 h2

/-- Folding `countStep` keeps the keys strictly sorted, adds `occurrences` to
    every key's count, and introduces only keys that are projections of the
    processed votes. -/
theorem count_votes_aux :
    ∀ (l : List SignedVote) (m : List (List Reconfig × Nat)),
      (m.map Prod.fst).Pairwise (fun a b => cmpListReconfig a b = .lt) →
      ((l.foldl countStep m).map Prod.fst).Pairwise (fun a b => cmpListReconfig a b = .lt)
      ∧ (∀ R, (mLookup cmpListReconfig R (l.foldl countStep m)).getD 0
          = (mLookup cmpListReconfig R m).getD 0 + occurrences l R)
      ∧ (∀ kv ∈ l.foldl countStep m, kv ∈ m ∨ ∃ v ∈ l, voteProj v = kv.1)
  | [], m, hp => ⟨hp, fun R => by simp [occurrences], fun kv hkv => .inl hkv⟩
  | v :: vs, m, hp => by
      obtain ⟨h1, h2, h3⟩ := count_votes_aux vs (countStep m v)
        (mInsert_pairwise (fun a b h => cmpListReconfig_eq_sound h)
          (fun a b c hab hbc => cmpListReconfig_lt_trans hab hbc)
          (fun a b h => cmpListReconfig_gt_lt h) _ _ hp)
      rw [List.foldl_cons]
      refine ⟨h1, ?_, ?_⟩
      · intro R
        rw [h2 R]
        by_cases hR : R = voteProj v
        · subst hR
          show (mLookup cmpListReconfig (voteProj v) (mInsert cmpListReconfig (voteProj v)
              ((mLookup cmpListReconfig (voteProj v) m).getD 0 + 1) m)).getD 0
              + occurrences vs (voteProj v)
            = (mLookup cmpListReconfig (voteProj v) m).getD 0
              + occurrences (v :: vs) (voteProj v)
          rw [mLookup_mInsert_self cmpListReconfig_refl]
          have hocc : occurrences (v :: vs) (voteProj v)
              = occurrences vs (voteProj v) + 1 := by
            simp [occurrences, List.countP_cons]
          rw [hocc, Option.getD_some]
          omega
        · show (mLookup cmpListReconfig R (mInsert cmpListReconfig (voteProj v)
              ((mLookup cmpListReconfig (voteProj v) m).getD 0 + 1) m)).getD 0
              + occurrences vs R
            = (mLookup cmpListReconfig R m).getD 0 + occurrences (v :: vs) R
          rw [mLookup_mInsert_ne (fun a b h => cmpListReconfig_eq_sound h)
            (fun a b c hab hbc => cmpListReconfig_lt_trans hab hbc) hR]
          have hocc : occurrences (v :: vs) R = occurrences vs R := by
            unfold occurrences
            rw [List.countP_cons]
            have hd : (decide (voteProj v = R)) = false :=
              decide_eq_false (fun hh => hR hh.symm)
            simp [hd]
          rw [hocc]
      · intro kv hkv
        rcases h3 kv hkv with hm | ⟨w, hw, hww⟩
        · rcases mem_mInsert hm with heq | hm2
          · refine .inr ⟨v, .head _, ?_⟩
            rw [heq]
          · exact .inl hm2
        · exact .inr ⟨w, .tail _ hw, hww⟩

/-- `max_by` over a key-sorted entry list starting from a first entry `b`: the
    result is present, carries the maximum count, and every other entry tying
    that count has a strictly smaller key. -/
theorem foldMax_sorted :
    ∀ (L : List (List Reconfig × Nat)) (b : List Reconfig × Nat),
      (L.map Prod.fst).Pairwise (fun a c => cmpListReconfig a c = .lt) →
      (∀ kv ∈ L, cmpListReconfig b.1 kv.1 = .lt) →
      ∃ kv, L.foldl betterOf (some b) = some kv
        ∧ (kv = b ∨ kv ∈ L)
        ∧ b.2 ≤ kv.2
        ∧ (∀ kv' ∈ L, kv'.2 ≤ kv.2)
        ∧ (∀ kv' ∈ L, kv'.2 = kv.2 → kv' = kv ∨ cmpListReconfig kv'.1 kv.1 = .lt)
        ∧ (b.2 = kv.2 → kv = b ∨ cmpListReconfig b.1 kv.1 = .lt)
  | [], b, _, _ =>
      ⟨b, rfl, .inl rfl, le_refl _, fun kv' h => absurd h (List.not_mem_nil kv'),
        fun kv' h => absurd h (List.not_mem_nil kv'), fun _ => .inl rfl⟩
  | x :: xs, b, hp, hb => by
      have hp' : (xs.map Prod.fst).Pairwise (fun a c => cmpListReconfig a c = .lt) :=
        (List.pairwise_cons.mp hp).2
      have hx : ∀ y ∈ xs.map Prod.fst, cmpListReconfig x.1 y = .lt :=
        (List.pairwise_cons.mp hp).1
      rw [List.foldl_cons]
      by_cases hcmp : x.2 < b.2
      · obtain ⟨kv, h0, hloc, hble, hall, htie, hbtie⟩ :=
          foldMax_sorted xs b hp' (fun kv hkv => hb kv (.tail _ hkv))
        refine ⟨kv, ?_, ?_, hble, ?_, ?_, hbtie⟩
        · show xs.foldl betterOf (if x.2 < b.2 then some b else some x) = some kv
          rw [if_pos hcmp]
          exact h0
        · rcases hloc with h | h
          · exact .inl h
          · exact .inr (.tail _ h)
        · intro kv' hkv'
          rcases List.mem_cons.mp hkv' with rfl | h
          · exact le_trans (le_of_lt hcmp) hble
          · exact hall kv' h
        · intro kv' hkv' he
          rcases List.mem_cons.mp hkv' with rfl | h
          · exact absurd he (by omega)
          · exact htie kv' h he
      · obtain ⟨kv, h0, hloc, hxle, hall, htie, hxtie⟩ :=
          foldMax_sorted xs x hp'
            (fun kv hkv => hx kv.1 (List.mem_map.mpr ⟨kv, hkv, rfl⟩))
        refine ⟨kv, ?_, ?_, ?_, ?_, ?_, ?_⟩
        · show xs.foldl betterOf (if x.2 < b.2 then some b else some x) = some kv
          rw [if_neg hcmp]
          exact h0
        · rcases hloc with rfl | h
          · exact .inr (.head _)
          · exact .inr (.tail _ h)
        · exact le_trans (Nat.le_of_not_lt hcmp) hxle
        · intro kv' hkv'
          rcases List.mem_cons.mp hkv' with rfl | h
          · exact hxle
          · exact hall kv' h
        · intro kv' hkv' he
          rcases List.mem_cons.mp hkv' with rfl | h
          · rcases hxtie he with h2 | h2
            · exact .inl h2.symm
            · exact .inr h2
          · exact htie kv' h he
        · intro he
          have hx2 : x.2 = kv.2 := by omega
          rcases hxtie hx2 with h2 | h2
          · refine .inr ?_
            rw [h2]
            exact hb x (.head _)
          · exact .inr (cmpListReconfig_lt_trans (hb x (.head _)) h2)

/-- C5: for non-empty input, `resolve_votes` returns a reconfig-set that is the
    projection of some vote, attains the maximum occurrence count among all
    per-vote projections, and any projection tying that count is the result or
    strictly below it in the `BTreeSet` order (the tie-break is deterministic
    towards the greatest set); the empty input yields the empty set. -/
theorem C5_resolve_votes_max (V : List SignedVote) :
    (V = [] → resolve_votes V = [])
    ∧ (V ≠ [] →
        (∃ v ∈ V, voteProj v = resolve_votes V)
        ∧ (∀ v ∈ V, occurrences V (voteProj v) ≤ occurrences V (resolve_votes V))
        ∧ (∀ v ∈ V, occurrences V (voteProj v) = occurrences V (resolve_votes V) →
            voteProj v = resolve_votes V
            ∨ cmpListReconfig (voteProj v) (resolve_votes V) = .lt)) := by
  constructor
  · intro h
    subst h
    rfl
  · intro hne
    obtain ⟨hsorted, hlook, hkeys⟩ := count_votes_aux V [] (by simp)
    have hcv : count_votes V = V.foldl countStep [] := rfl
    rw [← hcv] at hsorted hlook hkeys
    have hlook' : ∀ R, (mLookup cmpListReconfig R (count_votes V)).getD 0
        = occurrences V R := by
      intro R
      rw [hlook R]
      simp [mLookup]
    have hlookup_mem : ∀ v ∈ V, (voteProj v, occurrences V (voteProj v)) ∈ count_votes V := by
      intro v hv
      have hpos : 0 < occurrences V (voteProj v) :=
        List.countP_pos_iff.mpr ⟨v, hv, by simp⟩
      have hlv := hlook' (voteProj v)
      cases hml : mLookup cmpListReconfig (voteProj v) (count_votes V) with
      | none =>
          rw [hml] at hlv
          simp at hlv
          omega
      | some c' =>
          rw [hml] at hlv
          rw [Option.getD_some] at hlv
          obtain ⟨k', hk'mem, hk'eq⟩ := mLookup_mem hml
          have hkk : voteProj v = k' := cmpListReconfig_eq_sound hk'eq
          rw [← hlv]
          rw [hkk]
          exact hk'mem
    cases hL : count_votes V with
    | nil =>
        obtain ⟨v0, hv0⟩ := List.exists_mem_of_ne_nil V hne
        have := hlookup_mem v0 hv0
        rw [hL] at this
        cases this
    | cons e L' =>
        rw [hL] at hsorted
        obtain ⟨kv, h0, hloc, hele, hall, htie, hetie⟩ := foldMax_sorted L' e
          (List.pairwise_cons.mp hsorted).2
          (fun kv hkv => (List.pairwise_cons.mp hsorted).1 kv.1
            (List.mem_map.mpr ⟨kv, hkv, rfl⟩))
        have hres0 : resolve_votes V
            = (((count_votes V).foldl betterOf none).map Prod.fst).getD [] := rfl
        have hresolve : resolve_votes V = kv.1 := by
          rw [hres0, hL, List.foldl_cons]
          show (((L'.foldl betterOf (some e)).map Prod.fst)).getD [] = kv.1
          rw [h0]
          rfl
        have hmemL : ∀ kv', kv' ∈ count_votes V → kv'.2 ≤ kv.2 := by
          intro kv' hkv'
          rw [hL] at hkv'
          rcases List.mem_cons.mp hkv' with rfl | h
          · exact hele
          · exact hall kv' h
        have htieL : ∀ kv', kv' ∈ count_votes V → kv'.2 = kv.2 →
            kv' = kv ∨ cmpListReconfig kv'.1 kv.1 = .lt := by
          intro kv' hkv' he
          rw [hL] at hkv'
          rcases List.mem_cons.mp hkv' with rfl | h
          · rcases hetie he with h2 | h2
            · exact .inl h2.symm
            · exact .inr h2
          · exact htie kv' h he
        have hkv_mem : kv ∈ count_votes V := by
          rw [hL]
          rcases hloc with rfl | h
          · exact .head _
          · exact .tail _ h
        have hkv_val : kv.2 = occurrences V kv.1 := by
          have hs := mLookup_of_mem_sorted (fun a b h => cmpListReconfig_eq_sound h)
            cmpListReconfig_refl
            (fun a b c hab hbc => cmpListReconfig_lt_trans hab hbc)
            (by rw [hL]; exact hsorted) hkv_mem
          have h2 := hlook' kv.1
          rw [hL] at hs h2
          rw [hs, Option.getD_some] at h2
          exact h2
        refine ⟨?_, ?_, ?_⟩
        · rcases hkeys kv hkv_mem with hnil | ⟨w, hw, hww⟩
          · cases hnil
          · refine ⟨w, hw, ?_⟩
            rw [hresolve]
            exact hww
        · intro v hv
          have hb := hmemL _ (hlookup_mem v hv)
          rw [hresolve, ← hkv_val]
          exact hb
        · intro v hv he
          have htb := htieL _ (hlookup_mem v hv)
          rw [hresolve, ← hkv_val] at he
          rcases htb he with h2 | h2
          · refine .inl ?_
            rw [hresolve]
            exact congrArg Prod.fst h2
          · rw [hresolve]
            exact .inr h2

/-- C5 witness: the characterization applied to the empty vote set and to the
    singleton set holding `proposeJoin2`. -/
theorem C5_resolve_votes_max_witness :
    resolve_votes [] = [] ∧ resolve_votes [proposeJoin2] = [Reconfig.Join 2] :=
  ⟨(C5_resolve_votes_max []).1 rfl, by decide⟩

/-! ### C1: validation of `SuperMajority` ballots -/

/-- C1 counterexample: `forgedChildrenVote` is a `SuperMajority` vote whose
    child `forgedChild3` has generation 42 (≠ the enclosing generation 1) and an
    invalid signature, yet `validate_signed_vote` accepts the vote — so
    validation does **not** recursively validate `SuperMajority` children. -/
theorem C1_cex :
    twoForcedState.validate_signed_vote forgedChildrenVote = .ok ()
      ∧ forgedChildrenVote.vote.ballot = .SuperMajority [forgedChild3, forgedChild4]
      ∧ forgedChild3.vote.gen ≠ forgedChildrenVote.vote.gen
      ∧ forgedChild3.verify_signature = .error .InvalidSignature := by
  decide

/-- C1 amended: for a `SuperMajority(V')` ballot, validation only requires
    `is_super_majority` over the flattened child votes (child generations and
    child validity are not checked): whenever a `SuperMajority` vote passes
    `validate_signed_vote`, `is_super_majority` over its flattened children
    returned `true`. -/
theorem C1_amended_super_majority_flatten (s : State) (sv : SignedVote)
    (vs : List SignedVote) (hb : sv.vote.ballot = .SuperMajority vs)
    (hok : s.validate_signed_vote sv = .ok ()) :
    s.is_super_majority (sCollect cmpSV (unpackList vs)) = .ok true := by
  obtain ⟨voter, sig, vote⟩ := sv
  obtain ⟨g, ballot⟩ := vote
  simp only [SignedVote.vote_mk, Vote.ballot_mk] at hb
  subst hb
  have hvv : s.validate_vote (Vote.mk g (.SuperMajority vs)) = .ok () := by
    unfold State.validate_signed_vote at hok
    split at hok
    · exact absurd hok (by simp)
    · split at hok
      · exact absurd hok (by simp)
      · split at hok
        · exact absurd hok (by simp)
        · split at hok
          · exact absurd hok (by simp)
          · split at hok
            · exact absurd hok (by simp)
            · split at hok
              · exact hok
              · dsimp only at hok
                split at hok
                · exact absurd hok (by simp)
                · exact hok
  unfold State.validate_vote at hvv
  split at hvv
  · exact absurd hvv (by simp)
  · rename_i members hmembers
    split at hvv
    · exact absurd hvv (by simp)
    · rename_i b hsm
      match b, hvv with
      | true, _ => exact hsm

/-- C1 amended, witness: the concrete `forgedChildrenVote` instantiation. -/
theorem C1_amended_super_majority_flatten_witness :
    twoForcedState.is_super_majority
      (sCollect cmpSV (unpackList [forgedChild3, forgedChild4])) = .ok true :=
  C1_amended_super_majority_flatten twoForcedState forgedChildrenVote
    [forgedChild3, forgedChild4] (by decide) (by decide)

/-! ### C6: decision predicates at `n = 0` -/

/-- C6 counterexample: in a state with no members (`n = 0`), a non-empty vote
    set makes `is_super_majority` return `true`, contradicting the claim that
    all three decision predicates are false when `n == 0`. -/
theorem C6_cex :
    (State.new 1).members (State.new 1).gen = .ok []
      ∧ (State.new 1).is_super_majority [strayVote] = .ok true := by
  decide

theorem le_foldl_max : ∀ (l : List Nat) (a : Nat), a ≤ l.foldl max a
  | [], a => le_refl a
  | x :: xs, a => le_trans (Nat.le_max_left a x) (le_foldl_max xs (max a x))

theorem mem_le_foldl_max : ∀ (l : List Nat) (a : Nat), ∀ x ∈ l, x ≤ l.foldl max a
  | [], _, y, hy => absurd hy (List.not_mem_nil y)
  | x :: xs, a, y, hy => by
      rcases List.mem_cons.mp hy with rfl | h
      · exact le_trans (Nat.le_max_right a y) (le_foldl_max xs (max a y))
      · exact mem_le_foldl_max xs (max a x) y h

theorem foldl_max_mem : ∀ (l : List Nat) (a : Nat), l.foldl max a = a ∨ l.foldl max a ∈ l
  | [], _ => .inl rfl
  | x :: xs, a => by
      rw [List.foldl_cons]
      rcases foldl_max_mem xs (max a x) with h | h
      · rcases max_choice a x with h2 | h2
        · exact .inl (by rw [h, h2])
        · refine .inr ?_
          rw [h, h2]
          exact .head _
      · exact .inr (.tail _ h)

theorem foldl_sInsert_pairwise {cmp : α → α → Ordering}
    (hTrans : ∀ a b c : α, cmp a b = .lt → cmp b c = .lt → cmp a c = .lt)
    (hGtLt : ∀ a b : α, cmp a b = .gt → cmp b a = .lt) :
    ∀ (l acc : List α), acc.Pairwise (fun a b => cmp a b = .lt) →
      (l.foldl (fun acc x => sInsert cmp x acc) acc).Pairwise (fun a b => cmp a b = .lt)
  | [], _, h => h
  | x :: xs, acc, h =>
      foldl_sInsert_pairwise hTrans hGtLt xs (sInsert cmp x acc)
        (sInsert_pairwise hTrans hGtLt x h)

/-- Every vote of `V` contributes an entry of `count_votes V` holding exactly
    its occurrence count. -/
theorem count_votes_entry (V : List SignedVote) {v : SignedVote} (hv : v ∈ V) :
    (voteProj v, occurrences V (voteProj v)) ∈ count_votes V := by
  obtain ⟨hsorted, hlook, hkeys⟩ := count_votes_aux V [] (by simp)
  have hcv : count_votes V = V.foldl countStep [] := rfl
  rw [← hcv] at hlook
  have hpos : 0 < occurrences V (voteProj v) :=
    List.countP_pos_iff.mpr ⟨v, hv, by simp⟩
  have hlv := hlook (voteProj v)
  rw [show (mLookup cmpListReconfig (voteProj v)
      ([] : List (List Reconfig × Nat))).getD 0 = 0 from rfl, Nat.zero_add] at hlv
  cases hml : mLookup cmpListReconfig (voteProj v) (count_votes V) with
  | none =>
      rw [hml] at hlv
      simp at hlv
      omega
  | some c' =>
      rw [hml, Option.getD_some] at hlv
      obtain ⟨k', hk'mem, hk'eq⟩ := mLookup_mem hml
      have hkk : voteProj v = k' := cmpListReconfig_eq_sound hk'eq
      rw [← hlv, hkk]
      exact hk'mem

/-- Every entry of `count_votes V` holds the occurrence count of its key, and
    its key is the projection of some vote of `V`. -/
theorem count_votes_value {V : List SignedVote} {kv : List Reconfig × Nat}
    (hkv : kv ∈ count_votes V) :
    kv.2 = occurrences V kv.1 ∧ ∃ w ∈ V, voteProj w = kv.1 := by
  obtain ⟨hsorted, hlook, hkeys⟩ := count_votes_aux V [] (by simp)
  have hcv : count_votes V = V.foldl countStep [] := rfl
  rw [← hcv] at hsorted hlook hkeys
  constructor
  · have hs := mLookup_of_mem_sorted (fun a b h => cmpListReconfig_eq_sound h)
      cmpListReconfig_refl
      (fun a b c hab hbc => cmpListReconfig_lt_trans hab hbc) hsorted hkv
    have h2 := hlook kv.1
    rw [hs, Option.getD_some] at h2
    rw [h2, show (mLookup cmpListReconfig kv.1
      ([] : List (List Reconfig × Nat))).getD 0 = 0 from rfl, Nat.zero_add]
  · rcases hkeys kv hkv with h | h
    · cases h
    · exact h

/-- C6 amended: for a state whose membership at `gen` resolves to `ms`, the
    split-vote predicate equals the claimed formula, where the voter set is a
    duplicate-free list of the voters of `V` and `most` is the maximum bucket
    count of `V`; the empty vote set makes all three decision predicates false;
    at `n = 0` only `is_split_vote` is guaranteed false (the counterexample
    shows `is_super_majority` can be true there). -/
theorem C6_amended_decision_predicates (s : State) (V : List SignedVote) (ms : List Nat)
    (hms : s.members s.gen = .ok ms) :
    ∃ (voters : List Nat) (most : Nat),
      voters.Nodup
      ∧ (∀ a, a ∈ voters ↔ a ∈ V.map SignedVote.voter)
      ∧ (∀ v ∈ V, occurrences V (voteProj v) ≤ most)
      ∧ (V ≠ [] → ∃ v ∈ V, occurrences V (voteProj v) = most)
      ∧ s.is_split_vote V = .ok (decide (3 * voters.length > 2 * ms.length)
          && decide (3 * (most + (ms.filter (fun m => !(voters.contains m))).length)
            ≤ 2 * ms.length))
      ∧ (V = [] → s.is_split_vote V = .ok false
          ∧ s.is_super_majority V = .ok false
          ∧ s.is_super_majority_over_super_majorities V = .ok false)
      ∧ (ms = [] → s.is_split_vote V = .ok false) := by
  have heq : s.is_split_vote V
      = .ok (decide (3 * (sCollect cmpNat (V.map SignedVote.voter)).length > 2 * ms.length)
        && decide (3 * (listMax ((count_votes V).map Prod.snd)
            + (ms.filter (fun m =>
                !((sCollect cmpNat (V.map SignedVote.voter)).contains m))).length)
          ≤ 2 * ms.length)) := by
    unfold State.is_split_vote
    rw [hms]
    rfl
  have hbound : ∀ v ∈ V,
      occurrences V (voteProj v) ≤ listMax ((count_votes V).map Prod.snd) := by
    intro v hv
    exact mem_le_foldl_max _ 0 _ (List.mem_map.mpr ⟨_, count_votes_entry V hv, rfl⟩)
  refine ⟨sCollect cmpNat (V.map SignedVote.voter),
    listMax ((count_votes V).map Prod.snd), ?_, ?_, hbound, ?_, heq, ?_, ?_⟩
  · have hp : (sCollect cmpNat (V.map SignedVote.voter)).Pairwise
        (fun a b => cmpNat a b = .lt) :=
      foldl_sInsert_pairwise (fun a b c h1 h2 => @cmpNat_lt_trans a b c h1 h2)
        (fun a b h => @cmpNat_gt_lt a b h) (V.map SignedVote.voter) [] List.Pairwise.nil
    exact hp.imp (fun h he => by subst he; rw [cmpNat_refl] at h; cases h)
  · intro a
    exact mem_sCollect (fun a b h => (cmpNat_eq_iff a b).mp h) a _
  · intro hne
    obtain ⟨v0, hv0⟩ := List.exists_mem_of_ne_nil V hne
    rcases foldl_max_mem ((count_votes V).map Prod.snd) 0 with h0 | hmem
    · have h1 := hbound v0 hv0
      have h2 : 0 < occurrences V (voteProj v0) :=
        List.countP_pos_iff.mpr ⟨v0, hv0, by simp⟩
      have h3 : listMax ((count_votes V).map Prod.snd) = 0 := h0
      omega
    · obtain ⟨kv, hkv, hkveq⟩ := List.mem_map.mp hmem
      obtain ⟨hval, w, hw, hww⟩ := count_votes_value hkv
      refine ⟨w, hw, ?_⟩
      rw [hww, ← hval]
      exact hkveq
  · intro h
    subst h
    refine ⟨?_, ?_, ?_⟩
    · rw [heq]
      have hA : decide (3 * (sCollect cmpNat
          (([] : List SignedVote).map SignedVote.voter)).length > 2 * ms.length)
          = false := by
        apply decide_eq_false
        intro hcon
        rw [show (sCollect cmpNat
          (([] : List SignedVote).map SignedVote.voter)).length = 0 from rfl] at hcon
        omega
      rw [hA, Bool.false_and]
    · unfold State.is_super_majority
      rw [hms]
      show Except.ok (decide (3 * 0 > 2 * ms.length)) = .ok false
      exact congrArg Except.ok (decide_eq_false (by omega))
    · unfold State.is_super_majority_over_super_majorities
      rw [hms]
      show Except.ok (decide (3 * 0 > 2 * ms.length)) = .ok false
      exact congrArg Except.ok (decide_eq_false (by omega))
  · intro h
    subst h
    rw [heq]
    cases V with
    | nil => rfl
    | cons v0 rest =>
        have h2 : 0 < occurrences (v0 :: rest) (voteProj v0) :=
          List.countP_pos_iff.mpr ⟨v0, .head _, by simp⟩
        have h1 := hbound v0 (.head _)
        have hB : decide (3 * (listMax ((count_votes (v0 :: rest)).map Prod.snd)
            + (([] : List Nat).filter (fun m =>
                !((sCollect cmpNat ((v0 :: rest).map SignedVote.voter)).contains m))).length)
            ≤ 2 * ([] : List Nat).length) = false := by
          apply decide_eq_false
          intro hcon
          simp at hcon
          omega
        rw [hB, Bool.and_false]

/-- C6 witness: the characterization applied to the one-member state and the
    singleton vote set holding `proposeJoin2`. -/
theorem C6_amended_decision_predicates_witness :
    ∃ (voters : List Nat) (most : Nat),
      voters.Nodup
      ∧ (∀ a, a ∈ voters ↔ a ∈ [proposeJoin2].map SignedVote.voter)
      ∧ (∀ v ∈ [proposeJoin2], occurrences [proposeJoin2] (voteProj v) ≤ most)
      ∧ ([proposeJoin2] ≠ [] →
          ∃ v ∈ [proposeJoin2], occurrences [proposeJoin2] (voteProj v) = most)
      ∧ oneMemberState.is_split_vote [proposeJoin2]
          = .ok (decide (3 * voters.length > 2 * [1].length)
            && decide (3 * (most + ([1].filter (fun m => !(voters.contains m))).length)
              ≤ 2 * [1].length))
      ∧ ([proposeJoin2] = [] → oneMemberState.is_split_vote [proposeJoin2] = .ok false
          ∧ oneMemberState.is_super_majority [proposeJoin2] = .ok false
          ∧ oneMemberState.is_super_majority_over_super_majorities [proposeJoin2]
              = .ok false)
      ∧ (([1] : List Nat) = [] → oneMemberState.is_split_vote [proposeJoin2] = .ok false) :=
  C6_amended_decision_predicates oneMemberState [proposeJoin2] [1] (by decide)

/-! ### C8: duplicate delivery -/

/-- C8 counterexample: `proposeJoin2` is accepted by `oneMemberState`, and the
    second delivery of the identical packet is also accepted — but it commits a
    new history entry (generation 1) and changes the state, contradicting the
    claim that a duplicate delivery leaves history and state unchanged. -/
theorem C8_cex :
    firstDelivery.2
        = .ok [oneMemberState.send (oneMemberState.sign_vote
            (Vote.mk 1 (.SuperMajority [proposeJoin2]))) 1]
      ∧ secondDelivery.2 = .ok []
      ∧ firstDelivery.1.history = []
      ∧ secondDelivery.1.history ≠ firstDelivery.1.history
      ∧ secondDelivery.1 ≠ firstDelivery.1 := by
  refine ⟨by decide, by decide, by decide, by decide, by decide⟩

/-! ### C9: anti-entropy -/

/-- C9: `anti_entropy` takes `&self` (embedded as a pure function of the
    state, so it cannot modify it) and returns exactly one packet per history
    entry with generation strictly greater than `from_gen` — in ascending
    generation order, inherited from the `BTreeMap` — followed by one packet
    per current vote, all addressed to `to_actor`. -/
theorem C9_anti_entropy_exact (s : State) (from_gen : Generation) (to_actor : Nat)
    (hsorted : (s.history.map Prod.fst).Pairwise (· < ·)) :
    s.anti_entropy from_gen to_actor
        = (s.history.filter (fun kv => from_gen < kv.1)).map (fun kv => s.send kv.2 to_actor)
          ++ (mValues s.votes).map (fun v => s.send v to_actor)
      ∧ ((s.history.filter (fun kv => from_gen < kv.1)).map Prod.fst).Pairwise (· < ·)
      ∧ (∀ pkt ∈ s.anti_entropy from_gen to_actor, pkt.dest = to_actor)
      ∧ (s.anti_entropy from_gen to_actor).length
          = (s.history.countP (fun kv => from_gen < kv.1)) + s.votes.length := by
  refine ⟨rfl, ?_, ?_, ?_⟩
  · have : (s.history.filter (fun kv => from_gen < kv.1)).map Prod.fst
        = (s.history.map Prod.fst).filter (fun g => from_gen < g) := by
      simp [List.filter_map, Function.comp_def]
    rw [this]
    exact hsorted.filter _
  · intro pkt hpkt
    unfold State.anti_entropy at hpkt
    rcases List.mem_append.mp hpkt with h | h
    · obtain ⟨kv, _, rfl⟩ := List.mem_map.mp h
      rfl
    · obtain ⟨v, _, rfl⟩ := List.mem_map.mp h
      rfl
  · unfold State.anti_entropy
    simp [mValues, List.countP_eq_length_filter]

/-- C9 witness: concrete instantiation on the state after the double delivery
    (history holds generation 1) with `from_gen = 0` and peer `7`. -/
theorem C9_anti_entropy_exact_witness :
    (secondDelivery.1.history.map Prod.fst).Pairwise (· < ·)
      ∧ (∀ pkt ∈ secondDelivery.1.anti_entropy 0 7, pkt.dest = 7)
      ∧ (secondDelivery.1.anti_entropy 0 7).length
          = (secondDelivery.1.history.countP (fun kv => 0 < kv.1))
            + secondDelivery.1.votes.length := by
  have h := C9_anti_entropy_exact secondDelivery.1 0 7 (by decide)
  exact ⟨by decide, h.2.2.1, h.2.2.2⟩

end BRB
